import Mathlib

/-!
Verification of the tt-cli note-synchronisation core (frontmatter codec,
local note store, reconciler, sync orchestrator) against its
natural-language specification.

The embedding works at the level of JavaScript runtime values:

* strings are Lean `String`s, but every operation of the source
  (`split('\n')`, `trim()`, `toLowerCase()`, template concatenation) is
  modelled by an executable function on the underlying character list, so
  that concrete runs reduce by `decide` and `rfl`;
* a JavaScript object is an insertion-ordered association list
  (`Obj`), with `Obj.set` implementing property assignment (later writes
  override the value but keep the original key position, exactly as the
  object-literal spread in the source does);
* scalar frontmatter values are modelled by `Val` (`null`, booleans,
  strings, and string lists for `tags`); the external `js-yaml`
  dump/load pair is modelled at the fragment the program emits
  (plain `key: value` lines and block string sequences);
* filesystem and remote-store effects are modelled by explicit state
  passing, interactive prompts by decision lists, and `process.exit`
  by `Except` error results.
-/

namespace TT

/-! ## JavaScript runtime values -/

/-- A JavaScript value as it occurs in note frontmatter: `null`
(also standing for `undefined` results of a missed lookup coalesced by
`?? null`), booleans, strings, and arrays of strings (the `tags` field). -/
inductive Val where
  | vNull : Val
  | vBool (b : Bool) : Val
  | vStr (s : String) : Val
  | vStrList (xs : List String) : Val
deriving DecidableEq

/-- A JavaScript object: an insertion-ordered association list of
properties.  Key order matters (`Object.keys`, `Object.entries` iterate in
insertion order). -/
def Obj := List (String × Val)
deriving DecidableEq

instance : Membership (String × Val) Obj := inferInstanceAs (Membership _ (List _))

instance (kv : String × Val) (o : Obj) : Decidable (kv ∈ o) :=
  List.instDecidableMemOfLawfulBEq kv o

/-- Property read (`o[k]`): `none` models JavaScript `undefined`. -/
def Obj.get (o : Obj) (k : String) : Option Val :=
  match o with
  | [] => none
  | (k1, v) :: rest => if k1 = k then some v else Obj.get rest k

/-- Property write (`o[k] = v`): overrides the value in place if the key
exists (keeping its position), appends otherwise — JavaScript object
assignment semantics. -/
def Obj.set (o : Obj) (k : String) (v : Val) : Obj :=
  match o with
  | [] => [(k, v)]
  | (k1, v1) :: rest => if k1 = k then (k1, v) :: rest else (k1, v1) :: Obj.set rest k v

/-- `Object.keys(o)`. -/
def Obj.keys (o : Obj) : List String := o.map Prod.fst

/-- `Object.fromEntries(Object.entries(o).filter(([key]) => p key))`. -/
def Obj.filterKeys (o : Obj) (p : String → Bool) : Obj :=
  o.filter (fun e => p e.1)

/-- Sequential property assignment of all entries of `e` onto `o`:
the object-spread `{ ...o, ...e }`. -/
def Obj.setAll (o : Obj) (e : Obj) : Obj :=
  e.foldl (fun acc kv => Obj.set acc kv.1 kv.2) o

/-- JavaScript truthiness of a value (`if (!x)` tests). -/
def Val.truthy : Val → Bool
  | .vNull => false
  | .vBool b => b
  | .vStr s => s ≠ ""
  | .vStrList _ => true

/-- `o?.k ?? null`: lookup with nullish coalescing to `null`. -/
def Obj.getOrNull (o : Obj) (k : String) : Val :=
  (o.get k).getD .vNull

/-! ## Character-level models of the JavaScript string operations -/

/-- `s.split(c)` on character lists: always returns a non-empty list of
separator-free pieces. -/
def splitChar (c : Char) : List Char → List (List Char)
  | [] => [[]]
  | x :: xs =>
    match splitChar c xs with
    | [] => [[]]
    | r :: rs => if x = c then [] :: r :: rs else (x :: r) :: rs

/-- Interleave the separator between the pieces (`parts.join(c)`). -/
def joinSep (c : Char) : List (List Char) → List Char
  | [] => []
  | [x] => x
  | x :: y :: rest => x ++ c :: joinSep c (y :: rest)

/-- `content.split('\n')` of the source. -/
def splitLines (s : String) : List String :=
  (splitChar '\n' s.data).map String.mk

/-- `lines.join('\n')` of the source. -/
def joinLines (xs : List String) : String :=
  String.mk (joinSep '\n' (xs.map String.data))

/-- ASCII whitespace (the fragment of the JavaScript `trim` class the
program relies on). -/
def isWs (c : Char) : Bool := c = ' ' ∨ c = '\t' ∨ c = '\n' ∨ c = '\r'

/-- `s.trim()`. -/
def jsTrim (s : String) : String :=
  String.mk (((s.data.dropWhile isWs).reverse.dropWhile isWs).reverse)

/-- `s.toLowerCase()` (ASCII fragment). -/
def jsToLower (s : String) : String := String.mk (s.data.map Char.toLower)

/-- `s.endsWith(suffix)` on data. -/
def endsWith (suf : String) (s : String) : Bool :=
  suf.data.isSuffixOf s.data

/-- `part.startsWith(p)` on data. -/
def beginsWith (p : String) (s : String) : Bool :=
  p.data.isPrefixOf s.data

/-! ### Basic lemmas about the string primitives -/

theorem splitChar_ne_nil (c : Char) (l : List Char) : splitChar c l ≠ [] := by
  cases l with
  | nil => simp [splitChar]
  | cons x xs =>
    simp only [splitChar]
    rcases h : splitChar c xs with _ | ⟨r, rs⟩
    · simp
    · by_cases hx : x = c <;> simp [hx]

theorem splitChar_cons_sep (c : Char) (xs : List Char) :
    splitChar c (c :: xs) = [] :: splitChar c xs := by
  simp only [splitChar]
  rcases h : splitChar c xs with _ | ⟨r, rs⟩
  · exact absurd h (splitChar_ne_nil c xs)
  · simp

theorem splitChar_cons_ne (c x : Char) (xs : List Char) (hx : x ≠ c) :
    splitChar c (x :: xs) =
      (x :: (splitChar c xs).headD []) :: (splitChar c xs).tail := by
  simp only [splitChar]
  rcases h : splitChar c xs with _ | ⟨r, rs⟩
  · exact absurd h (splitChar_ne_nil c xs)
  · simp [hx]

/-- Splitting a separator-free list yields a single piece. -/
theorem splitChar_of_not_mem (c : Char) (l : List Char) (h : c ∉ l) :
    splitChar c l = [l] := by
  induction l with
  | nil => rfl
  | cons x xs ih =>
    simp only [List.mem_cons, not_or] at h
    rw [splitChar_cons_ne c x xs (fun he => h.1 he.symm), ih h.2]
    simp

/-- Splitting distributes over a separator occurrence. -/
theorem splitChar_append_sep (c : Char) (l1 l2 : List Char) :
    splitChar c (l1 ++ c :: l2) = splitChar c l1 ++ splitChar c l2 := by
  induction l1 with
  | nil => simpa using splitChar_cons_sep c l2
  | cons x xs ih =>
    by_cases hx : x = c
    · subst hx
      rw [List.cons_append, splitChar_cons_sep, splitChar_cons_sep, ih]
      simp
    · rw [List.cons_append, splitChar_cons_ne c x _ hx, splitChar_cons_ne c x xs hx, ih]
      rcases h : splitChar c xs with _ | ⟨r, rs⟩
      · exact absurd h (splitChar_ne_nil c xs)
      · simp

/-- Every piece produced by `splitChar` is separator-free. -/
theorem splitChar_pieces_not_mem (c : Char) (l : List Char) :
    ∀ p ∈ splitChar c l, c ∉ p := by
  induction l with
  | nil => intro p hp; simp [splitChar] at hp; simp [hp]
  | cons x xs ih =>
    intro p hp
    by_cases hx : x = c
    · subst hx
      rw [splitChar_cons_sep] at hp
      rcases List.mem_cons.mp hp with h1 | h1
      · simp [h1]
      · exact ih p h1
    · rw [splitChar_cons_ne c x xs hx] at hp
      rcases h : splitChar c xs with _ | ⟨r, rs⟩
      · exact absurd h (splitChar_ne_nil c xs)
      · rw [h] at hp
        rcases List.mem_cons.mp hp with h1 | h1
        · have hr : c ∉ r := ih r (by rw [h]; exact List.mem_cons_self r rs)
          subst h1
          simp only [List.headD_cons]
          intro hmem
          rcases List.mem_cons.mp hmem with h2 | h2
          · exact hx h2.symm
          · exact hr h2
        · exact ih p (by rw [h]; exact List.mem_cons_of_mem r h1)

/-- Joining the split recovers the original list. -/
theorem joinSep_splitChar (c : Char) (l : List Char) :
    joinSep c (splitChar c l) = l := by
  induction l with
  | nil => rfl
  | cons x xs ih =>
    by_cases hx : x = c
    · rw [hx, splitChar_cons_sep]
      rcases h : splitChar c xs with _ | ⟨r, rs⟩
      · exact absurd h (splitChar_ne_nil c xs)
      · rw [h] at ih
        simpa [joinSep, hx] using ih
    · rw [splitChar_cons_ne c x xs hx]
      rcases h : splitChar c xs with _ | ⟨r, rs⟩
      · exact absurd h (splitChar_ne_nil c xs)
      · rw [h] at ih
        cases rs with
        | nil => simpa [joinSep] using congrArg (x :: ·) ih
        | cons y ys =>
          simp only [joinSep] at ih ⊢
          simp [← ih]

theorem joinSep_append (c : Char) (l1 l2 : List (List Char))
    (h1 : l1 ≠ []) (h2 : l2 ≠ []) :
    joinSep c (l1 ++ l2) = joinSep c l1 ++ c :: joinSep c l2 := by
  induction l1 with
  | nil => exact absurd rfl h1
  | cons x xs ih =>
    cases xs with
    | nil =>
      cases l2 with
      | nil => exact absurd rfl h2
      | cons y ys => simp [joinSep]
    | cons z zs =>
      have h3 := ih (by simp)
      simp only [List.cons_append] at h3 ⊢
      simp only [joinSep]
      rw [h3]
      simp [joinSep]

/-- Splitting the join recovers the pieces, when each piece is
separator-free. -/
theorem splitChar_joinSep (c : Char) (L : List (List Char))
    (hne : L ≠ []) (hfree : ∀ p ∈ L, c ∉ p) :
    splitChar c (joinSep c L) = L := by
  induction L with
  | nil => exact absurd rfl hne
  | cons x xs ih =>
    cases xs with
    | nil => simpa [joinSep] using splitChar_of_not_mem c x (hfree x (by simp))
    | cons y ys =>
      have hx : c ∉ x := hfree x (by simp)
      simp only [joinSep]
      rw [splitChar_append_sep, splitChar_of_not_mem c x hx]
      have := ih (by simp) (fun p hp => hfree p (List.mem_cons_of_mem x hp))
      simp only [joinSep] at this
      simp [this]

/-! ## The modelled js-yaml fragment

The program delegates frontmatter serialisation to the external `js-yaml`
library (`yaml.dump` / `yaml.load`).  The library is modelled at exactly
the fragment the program emits: one `key: value` line per scalar field and
a block sequence (`key:` followed by `  - item` lines) for string lists.
`yamlLoad` additionally models the `typeof parsedYaml === 'object'` check
and the `try/catch` of the source: any line that does not parse as a
mapping entry makes the whole load return `none`. -/

/-- One dumped entry of `yaml.dump` (modelled fragment). -/
def dumpEntry (k : String) (v : Val) : List String :=
  match v with
  | .vNull => [k ++ ": null"]
  | .vBool true => [k ++ ": true"]
  | .vBool false => [k ++ ": false"]
  | .vStr s => [k ++ ": " ++ s]
  | .vStrList [] => [k ++ ": []"]
  | .vStrList xs => (k ++ ":") :: xs.map (fun x => "  - " ++ x)

/-- `yaml.dump(o)` (modelled fragment; like the library, ends with a
newline, which `formatNoteAsMarkdown` trims away). -/
def yamlDump (o : Obj) : String :=
  joinLines ((o.map (fun kv => dumpEntry kv.1 kv.2)).flatten) ++ "\n"

/-- A scalar on the right of `key: `, as `js-yaml` reads it back. -/
def parseScalar (s : String) : Val :=
  if s = "null" then .vNull
  else if s = "true" then .vBool true
  else if s = "false" then .vBool false
  else if s = "[]" then .vStrList []
  else .vStr s

/-- Parser state: accumulated object and the pending block-sequence key. -/
structure YState where
  acc : Obj
  pending : Option (String × List String)
deriving DecidableEq

/-- Close a pending block sequence (a bare `key:` with no items reads back
as `null`, with items as the list of items in order). -/
def flushPending (st : YState) : Obj :=
  match st.pending with
  | none => st.acc
  | some (k, items) =>
    match items with
    | [] => st.acc.set k .vNull
    | _ => st.acc.set k (.vStrList items.reverse)

/-- Consume one line of the dumped document. -/
def yamlStep (st : Option YState) (line : String) : Option YState :=
  match st with
  | none => none
  | some st =>
    if beginsWith "  - " line then
      match st.pending with
      | some (k, items) => some ⟨st.acc, some (k, String.mk (line.data.drop 4) :: items)⟩
      | none => none
    else
      match line.data.dropWhile (fun c => c ≠ ':') with
      | [] => none
      | _ :: rest =>
        match rest with
        | [] =>
          some ⟨flushPending st,
            some (String.mk (line.data.takeWhile (fun c => c ≠ ':')), [])⟩
        | ' ' :: v =>
          some ⟨(flushPending st).set (String.mk (line.data.takeWhile (fun c => c ≠ ':')))
            (parseScalar (String.mk v)), none⟩
        | _ => none

/-- `yaml.load` composed with the source's `typeof === 'object'` check and
`try/catch`: `none` models both a parse error and a non-mapping document. -/
def yamlLoad (s : String) : Option Obj :=
  match (splitLines s).foldl yamlStep (some ⟨[], none⟩) with
  | none => none
  | some st => some (flushPending st)

/-! ## Frontmatter codec (src/parse-note.ts) -/

/-- The in-memory file handed to the codec (`NoteFile` of the source). -/
structure NoteFile where
  content : String
  path : String
deriving DecidableEq

/-- The loop of `extractFrontmatterFromMarkdownFile` /
`removeFrontmatterFromMarkdownFile` over `lines.slice(1)`: find the first
line that trims to the delimiter, returning the lines strictly before it
and the lines strictly after it. -/
def splitFmLines : List String → Option (List String × List String)
  | [] => none
  | l :: rest =>
    if jsTrim l = "---" then some ([], rest)
    else
      match splitFmLines rest with
      | none => none
      | some (fm, body) => some (l :: fm, body)

/-- `extractFrontmatterFromMarkdownFile` (identical in all three copies of
the module): the metadata block is recognised only if the first line trims
to `---`; a missing closing delimiter, a parse error, or a non-mapping
document yields `null`. -/
def extractFrontmatterFromMarkdownFile (content : String) : Option Obj :=
  match splitLines content with
  | [] => none
  | l0 :: rest =>
    if jsTrim l0 = "---" then
      match splitFmLines rest with
      | none => none
      | some (fmLines, _) => yamlLoad (joinLines fmLines)
    else none

/-- `removeFrontmatterFromMarkdownFile`: the body after the closing
delimiter, or the whole text unchanged when there is no recognised
frontmatter block. -/
def removeFrontmatterFromMarkdownFile (content : String) : String :=
  match splitLines content with
  | [] => content
  | l0 :: rest =>
    if jsTrim l0 = "---" then
      match splitFmLines rest with
      | none => content
      | some (_, bodyLines) => joinLines bodyLines
    else content

/-- Read a property expected to be a string (`note.content` under the
`NoteType` contract; the default branch is unreachable for type-correct
objects). -/
def Obj.getStr (o : Obj) (k : String) : String :=
  match o.get k with
  | some (.vStr s) => s
  | _ => ""

/-- `formatNoteAsMarkdown` (first module copy, the codec's `encode`):
deletes `_id`, serialises every remaining field except `content` as the
metadata block, then the delimiter, then the raw body. -/
def formatNoteAsMarkdown (note : Obj) : String :=
  let note1 := note.filterKeys (fun k => k ≠ "_id")
  let allButContent := note1.filterKeys (fun k => k ≠ "content")
  joinLines ["---", jsTrim (yamlDump allButContent), "---", note.getStr "content"]

/-- `getPrintableNoteContent` (second module copy). -/
def getPrintableNoteContent (note : Obj) : Obj :=
  note.filterKeys (fun k => k ≠ "content" && k ≠ "googleDocContent")

/-- `formatNoteAsMarkdown` (second module copy / part_002): additionally
excludes `googleDocContent` from the metadata block. -/
def formatNoteAsMarkdownV2 (note : Obj) : String :=
  let note1 := note.filterKeys (fun k => k ≠ "_id")
  joinLines ["---", jsTrim (yamlDump (getPrintableNoteContent note1)), "---", note.getStr "content"]

/-! ## Local note store: resolving files to notes -/

/-- `file.path.split('/').pop()?.split('.').shift()`: the filename stem. -/
def jsPathStem (p : String) : String :=
  String.mk ((splitChar '.' ((splitChar '/' p.data).getLastD [])).headD [])

/-- `frontmatter?.published ?? false`. -/
def publishedOf (fm : Obj) : Val :=
  match fm.get "published" with
  | none => .vBool false
  | some .vNull => .vBool false
  | some v => v

/-- `frontmatter?.tags ?? []` (used by creatable extraction and the
conflict comparison). -/
def jsTagsDefault (o : Obj) : Val :=
  match o.get "tags" with
  | none => .vStrList []
  | some .vNull => .vStrList []
  | some v => v

/-- Keys consumed by the resolver; everything else is `extraData`. -/
def isExtraKey (k : String) : Bool :=
  k ≠ "id" && k ≠ "createdAt" && k ≠ "updatedAt" && k ≠ "tags" && k ≠ "published"

/-- `extractNoteFromMarkdownFile` (first module copy): requires truthy
`id`, `createdAt`, `updatedAt`; the title is the filename stem; the
returned object literal spreads `extraData` last, so unconsumed
frontmatter keys override the computed fields. -/
def extractNoteFromMarkdownFile (file : NoteFile) : Option Obj :=
  match extractFrontmatterFromMarkdownFile file.content with
  | none => none
  | some fm =>
    let content := removeFrontmatterFromMarkdownFile file.content
    let id := fm.getOrNull "id"
    if !id.truthy then none
    else
      let createdAt := fm.getOrNull "createdAt"
      if !createdAt.truthy then none
      else
        let updatedAt := fm.getOrNull "updatedAt"
        if !updatedAt.truthy then none
        else
          let title := jsPathStem file.path
          if title = "" then none
          else
            let extraData := fm.filterKeys isExtraKey
            let base : Obj :=
              [("id", id), ("title", .vStr title), ("content", .vStr content),
               ("createdAt", createdAt), ("updatedAt", updatedAt),
               ("tags", fm.getOrNull "tags"), ("date", createdAt),
               ("published", publishedOf fm)]
            some (base.setAll extraData)

/-- `extractNoteFromMarkdownFile` (part_002 copy): identical except the
title is read from the frontmatter (`frontmatter?.title ?? null`) and its
falsiness is a skip. -/
def extractNoteFromMarkdownFileV2 (file : NoteFile) : Option Obj :=
  match extractFrontmatterFromMarkdownFile file.content with
  | none => none
  | some fm =>
    let content := removeFrontmatterFromMarkdownFile file.content
    let id := fm.getOrNull "id"
    if !id.truthy then none
    else
      let createdAt := fm.getOrNull "createdAt"
      if !createdAt.truthy then none
      else
        let updatedAt := fm.getOrNull "updatedAt"
        if !updatedAt.truthy then none
        else
          let title := fm.getOrNull "title"
          if !title.truthy then none
          else
            let extraData := fm.filterKeys isExtraKey
            let base : Obj :=
              [("id", id), ("title", title), ("content", .vStr content),
               ("createdAt", createdAt), ("updatedAt", updatedAt),
               ("tags", fm.getOrNull "tags"), ("date", createdAt),
               ("published", publishedOf fm)]
            some (base.setAll extraData)

/-- `extractCreatableNote` (aka `extractCreatableNoteFromMarkdownFile`):
only files with no (truthy) `id`; the title falls back to the filename
stem, the date to the file's modification time (passed in, since `stat` is
an effect), the tags to the empty list. -/
def extractCreatableNote (file : NoteFile) (mtime : String) : Option Obj :=
  let fm : Obj := (extractFrontmatterFromMarkdownFile file.content).getD []
  let id := fm.getOrNull "id"
  if id.truthy then none
  else
    let title :=
      match fm.get "title" with
      | some (.vStr s) => s
      | _ => jsPathStem file.path
    if title = "" then none
    else
      let date :=
        match fm.get "date" with
        | some (.vStr s) => s
        | _ => mtime
      if date = "" then none
      else
        let content := removeFrontmatterFromMarkdownFile file.content
        some [("title", .vStr title), ("content", .vStr content),
              ("date", .vStr date), ("tags", jsTagsDefault fm)]

/-! ## Directory scan -/

/-- A file of the notes directory, with a stringified modification time
(the `stat(...).mtime.toISOString()` of the source). -/
structure LocalFile where
  path : String
  content : String
  mtime : String
deriving DecidableEq

/-- `getNoteFilePaths`: keep the files whose name lower-cases to a `.md`
suffix. -/
def noteFiles (fs : List LocalFile) : List LocalFile :=
  fs.filter (fun f => endsWith ".md" (jsToLower f.path))

/-- A scanned note: the resolved note object plus the file path. -/
structure ScanEntry where
  note : Obj
  path : String
deriving DecidableEq

/-- `scanNotesDirectory` (first module copy): read every note file,
resolve it, silently skip unresolvable files. -/
def scanNotesDirectory (fs : List LocalFile) : List ScanEntry :=
  (noteFiles fs).filterMap
    (fun f => (extractNoteFromMarkdownFile ⟨f.content, f.path⟩).map (fun n => ⟨n, f.path⟩))

/-- `scanNotesDirectory` with the part_002 resolver. -/
def scanNotesDirectoryV2 (fs : List LocalFile) : List ScanEntry :=
  (noteFiles fs).filterMap
    (fun f => (extractNoteFromMarkdownFileV2 ⟨f.content, f.path⟩).map (fun n => ⟨n, f.path⟩))

/-! ## Reconciler: conflict detection -/

/-- The modelled `JSON.stringify` for the tag comparison (no escaping;
the theorems that rely on it restrict to quote-free strings). -/
def joinCommaStr : List String → String
  | [] => ""
  | [x] => x
  | x :: y :: rest => x ++ "," ++ joinCommaStr (y :: rest)

def jsonQuote (s : String) : String := "\"" ++ s ++ "\""

def jsonStringify : Val → String
  | .vNull => "null"
  | .vBool true => "true"
  | .vBool false => "false"
  | .vStr s => jsonQuote s
  | .vStrList xs => "[" ++ joinCommaStr (xs.map jsonQuote) ++ "]"

/-- The special keys of the conflict comparison; every remaining key of
the local note is compared by strict equality. -/
def isOtherKey (k : String) : Bool :=
  k ≠ "id" && k ≠ "title" && k ≠ "date" && k ≠ "tags" && k ≠ "content"

/-- The `conflictType` array built by `findConflicts` for one matched
local/remote pair, with the pushes in source order: `title`, `date`,
`tags` (serialized, order-sensitive), `content` (the local body with
frontmatter stripped once more vs. the remote body verbatim), then every
other key of the local note by strict value equality. -/
def conflictTypeOf (note : Obj) (remote : Obj) : List String :=
  (if remote.get "title" = note.get "title" then [] else ["title"]) ++
  (if remote.get "date" = note.get "date" then [] else ["date"]) ++
  (if jsonStringify (jsTagsDefault remote) = jsonStringify (jsTagsDefault note) then []
   else ["tags"]) ++
  (if remote.get "content" =
      some (.vStr (removeFrontmatterFromMarkdownFile (note.getStr "content"))) then []
   else ["content"]) ++
  (note.keys.filter (fun k => isOtherKey k && remote.get k ≠ note.get k))

/-- A diff-annotated conflict (`Conflict` of the source). -/
structure Conflict where
  localNote : Obj
  localPath : String
  remote : Obj
  conflictType : List String
deriving DecidableEq

/-- `findConflicts` (module level, both sweep versions): for each scanned
local note, find the same-id remote record; unmatched local notes are
skipped; a matched pair is a conflict iff its `conflictType` is
non-empty. -/
def findConflictsPure (notes : List ScanEntry) (remoteNotes : List Obj) : List Conflict :=
  notes.filterMap
    (fun e =>
      match remoteNotes.find? (fun r => r.get "id" == e.note.get "id") with
      | none => none
      | some r =>
        let ct := conflictTypeOf e.note r
        if ct = [] then none else some ⟨e.note, e.path, r, ct⟩)

/-- The inner `findConflicts` of part_002's `handleConflict`: identical
comparison, but a local note whose id is missing from the (cached) remote
snapshot aborts the whole process (`process.exit(1)`), modelled as an
`Except` error carrying the exit code. -/
def findConflictsStrict (notes : List ScanEntry) (remoteNotes : List Obj) :
    Except Nat (List Conflict) :=
  match notes with
  | [] => .ok []
  | e :: rest =>
    match remoteNotes.find? (fun r => r.get "id" == e.note.get "id") with
    | none => .error 1
    | some r =>
      match findConflictsStrict rest remoteNotes with
      | .error n => .error n
      | .ok cs =>
        let ct := conflictTypeOf e.note r
        .ok (if ct = [] then cs else ⟨e.note, e.path, r, ct⟩ :: cs)

/-! ## Lemmas about objects and the codec primitives -/

theorem splitLines_ne_nil (s : String) : splitLines s ≠ [] := by
  intro h
  have := splitChar_ne_nil '\n' s.data
  simp [splitLines] at h
  exact this h

theorem Obj.get_set_self (o : Obj) (k : String) (v : Val) :
    (o.set k v).get k = some v := by
  induction o with
  | nil => simp [Obj.set, Obj.get]
  | cons e rest ih =>
    obtain ⟨k1, v1⟩ := e
    by_cases h : k1 = k
    · simp [Obj.set, Obj.get, h]
    · simp [Obj.set, Obj.get, h, ih]

theorem Obj.get_set_ne (o : Obj) (k1 k : String) (v : Val) (h : k1 ≠ k) :
    (o.set k1 v).get k = o.get k := by
  induction o with
  | nil => simp [Obj.set, Obj.get, h]
  | cons e rest ih =>
    obtain ⟨k2, v2⟩ := e
    by_cases h2 : k2 = k1
    · subst h2
      have h3 : ¬ k2 = k := h
      simp [Obj.set, Obj.get, h3]
    · simp only [Obj.set, if_neg h2]
      by_cases h3 : k2 = k
      · simp [Obj.get, h3]
      · simp [Obj.get, h3, ih]

theorem Obj.setAll_get_of_not_mem (e : Obj) (o : Obj) (k : String)
    (h : k ∉ e.keys) : (o.setAll e).get k = o.get k := by
  induction e generalizing o with
  | nil => rfl
  | cons kv rest ih =>
    obtain ⟨k1, v1⟩ := kv
    have h1 : k1 ≠ k := by
      intro he
      exact h (by simp [Obj.keys, he])
    have h2 : k ∉ Obj.keys rest := by
      intro hmem
      refine h ?_
      simp only [Obj.keys, List.map_cons]
      exact List.mem_cons_of_mem _ hmem
    show (Obj.setAll (o.set k1 v1) rest).get k = o.get k
    rw [ih (o.set k1 v1) h2, Obj.get_set_ne o k1 k v1 h1]

theorem Obj.setAll_get_of_mem (e : Obj) (o : Obj) (k : String) (v : Val)
    (hmem : (k, v) ∈ e) (hnd : e.keys.Nodup) :
    (o.setAll e).get k = some v := by
  induction e generalizing o with
  | nil => cases hmem
  | cons kv rest ih =>
    obtain ⟨k1, v1⟩ := kv
    have hnd1 : k1 ∉ Obj.keys rest ∧ (Obj.keys rest).Nodup := by
      simpa [Obj.keys] using hnd
    rcases List.mem_cons.mp hmem with h | h
    · injection h with h1 h2
      subst h1; subst h2
      show (Obj.setAll (o.set k v) rest).get k = some v
      rw [Obj.setAll_get_of_not_mem rest _ k hnd1.1, Obj.get_set_self]
    · exact ih (o.set k1 v1) h hnd1.2

theorem Obj.get_eq_some_of_mem (o : Obj) (k : String) (v : Val)
    (hmem : (k, v) ∈ o) (hnd : o.keys.Nodup) : o.get k = some v := by
  induction o with
  | nil => cases hmem
  | cons kv rest ih =>
    obtain ⟨k1, v1⟩ := kv
    have hnd1 : k1 ∉ Obj.keys rest ∧ (Obj.keys rest).Nodup := by
      simpa [Obj.keys] using hnd
    rcases List.mem_cons.mp hmem with h | h
    · injection h with h1 h2
      subst h1; subst h2
      simp [Obj.get]
    · have hne : k1 ≠ k := by
        intro he
        subst he
        exact hnd1.1 (by simpa [Obj.keys] using List.mem_map_of_mem Prod.fst h)
      simp only [Obj.get, if_neg hne]
      exact ih h hnd1.2

theorem Obj.keys_filterKeys_sublist (o : Obj) (p : String → Bool) :
    (o.filterKeys p).keys.Sublist o.keys :=
  List.Sublist.map Prod.fst (List.filter_sublist o)

theorem Obj.mem_filterKeys (o : Obj) (p : String → Bool) (k : String) (v : Val)
    (hmem : (k, v) ∈ o) (hp : p k = true) : (k, v) ∈ o.filterKeys p := by
  show (k, v) ∈ List.filter (fun e => p e.1) o
  rw [List.mem_filter]
  exact ⟨hmem, hp⟩

/-- The loop over `lines.slice(1)` finds no closing delimiter iff no line
trims to it. -/
theorem splitFmLines_eq_none (ls : List String)
    (h : ∀ l ∈ ls, jsTrim l ≠ "---") : splitFmLines ls = none := by
  induction ls with
  | nil => rfl
  | cons l rest ih =>
    have h0 : jsTrim l ≠ "---" := h l (by simp)
    simp only [splitFmLines, h0, if_false]
    rw [ih (fun x hx => h x (List.mem_cons_of_mem l hx))]

/-- The loop over `lines.slice(1)` splits at the first closing delimiter. -/
theorem splitFmLines_append (L1 L2 : List String)
    (h : ∀ l ∈ L1, jsTrim l ≠ "---") :
    splitFmLines (L1 ++ "---" :: L2) = some (L1, L2) := by
  induction L1 with
  | nil =>
    have h0 : jsTrim "---" = "---" := by decide
    simp [splitFmLines, h0]
  | cons l rest ih =>
    have h0 : jsTrim l ≠ "---" := h l (by simp)
    have h1 := ih (fun x hx => h x (List.mem_cons_of_mem l hx))
    simp only [List.cons_append, splitFmLines, h0, if_false]
    rw [show rest.append ("---" :: L2) = rest ++ "---" :: L2 from rfl, h1]

/-! ## Claim C6 -/

/-- C6: for every file whose first line, trimmed, equals the delimiter but
that contains no later line trimming to the delimiter, decoding yields no
frontmatter and returns the entire original text, unchanged, as the
body. -/
theorem C6_unclosed_block_decodes_to_body (content : String)
    (h0 : jsTrim ((splitLines content).headD "") = "---")
    (h1 : ∀ l ∈ (splitLines content).tail, jsTrim l ≠ "---") :
    extractFrontmatterFromMarkdownFile content = none ∧
    removeFrontmatterFromMarkdownFile content = content := by
  rcases hs : splitLines content with _ | ⟨l0, rest⟩
  · exact absurd hs (splitLines_ne_nil content)
  · rw [hs] at h0 h1
    simp only [List.headD_cons] at h0
    simp only [List.tail_cons] at h1
    have h2 : splitFmLines rest = none := splitFmLines_eq_none rest h1
    constructor
    · simp [extractFrontmatterFromMarkdownFile, hs, h0, h2]
    · simp [removeFrontmatterFromMarkdownFile, hs, h0, h2]

/-- Witness for C6 at the concrete file `"---\nhello"`. -/
theorem C6_unclosed_block_decodes_to_body_witness :
    jsTrim ((splitLines "---\nhello").headD "") = "---" ∧
    (∀ l ∈ (splitLines "---\nhello").tail, jsTrim l ≠ "---") ∧
    extractFrontmatterFromMarkdownFile "---\nhello" = none ∧
    removeFrontmatterFromMarkdownFile "---\nhello" = "---\nhello" := by
  refine ⟨by decide, by decide, ?_⟩
  exact C6_unclosed_block_decodes_to_body "---\nhello" (by decide) (by decide)

/-! ## Claim C4

The spec's scenario gives the local file the frontmatter
`id, title, date, updatedAt` — but `extractNoteFromMarkdownFile` requires
a truthy `createdAt` (the `date` key does not count), so the file fails
resolution, is excluded from the scan, and reconciliation reports *no*
conflict at all for id `5`. -/

/-- The scenario's local file, exactly as the spec writes it. -/
def c4File : LocalFile :=
  ⟨"/notes/mynote.md",
   "---\nid: 5\ntitle: Old\ndate: 2024-01-01\nupdatedAt: 2024-01-01\n---\nbody",
   "2024-01-01"⟩

/-- The scenario's remote record, exactly as the spec writes it. -/
def c4Remote : Obj :=
  [("id", .vStr "5"), ("title", .vStr "New"), ("date", .vStr "2024-01-01"),
   ("tags", .vStrList [])]

/-- C4 counterexample: on the scenario's exact inputs the reconciler
produces no conflict whatsoever (the local file is skipped for its missing
`createdAt`), contradicting the claimed conflict with
`fieldDiffs = ["title"]`. -/
theorem C4_counterexample :
    findConflictsPure (scanNotesDirectory [c4File]) [c4Remote] = [] := by
  decide

/-- The scenario's local file amended with a `createdAt` key. -/
def c4FileAmended : LocalFile :=
  ⟨"/notes/mynote.md",
   "---\nid: 5\ntitle: Old\ncreatedAt: 2024-01-01\ndate: 2024-01-01\nupdatedAt: 2024-01-01\n---\nbody",
   "2024-01-01"⟩

/-- The scenario's remote record completed with the fields the comparison
also reads (`content` equal to the local body, matching `createdAt`,
`updatedAt`, and `published`). -/
def c4RemoteAmended : Obj :=
  [("id", .vStr "5"), ("title", .vStr "New"), ("date", .vStr "2024-01-01"),
   ("tags", .vStrList []), ("content", .vStr "body"),
   ("createdAt", .vStr "2024-01-01"), ("updatedAt", .vStr "2024-01-01"),
   ("published", .vBool false)]

/-- C4 amended: once the local frontmatter also carries
`createdAt: 2024-01-01` and the remote record carries matching `content`,
`createdAt`, `updatedAt` and `published`, reconciliation produces exactly
one conflict for id `5`, with `fieldDiffs` equal to `["title"]`. -/
theorem C4_amended_title_conflict :
    (findConflictsPure (scanNotesDirectory [c4FileAmended]) [c4RemoteAmended]).map
      Conflict.conflictType = [["title"]] := by
  decide

theorem Obj.mem_of_get_eq_some (o : Obj) (k : String) (v : Val)
    (h : o.get k = some v) : (k, v) ∈ o := by
  induction o with
  | nil => simp [Obj.get] at h
  | cons kv rest ih =>
    obtain ⟨k1, v1⟩ := kv
    by_cases h1 : k1 = k
    · subst h1
      simp [Obj.get] at h
      subst h
      exact List.mem_cons_self _ _
    · simp only [Obj.get, if_neg h1] at h
      exact List.mem_cons_of_mem _ (ih h)

/-! ## Claim C10 -/

/-- C10: in `extractNoteFromMarkdownFile` the unconsumed frontmatter keys
are spread after the computed fields, so a frontmatter key named
`content`, `title`, or `date` overrides the value computed from the file
body, the filename, or `createdAt`: the resolved note carries the
frontmatter value for that key. -/
theorem C10_frontmatter_overrides_computed (file : NoteFile) (fm note : Obj)
    (k : String) (v : Val)
    (hfm : extractFrontmatterFromMarkdownFile file.content = some fm)
    (hnd : fm.keys.Nodup)
    (hk : k = "content" ∨ k = "title" ∨ k = "date")
    (hkv : fm.get k = some v)
    (hnote : extractNoteFromMarkdownFile file = some note) :
    note.get k = some v := by
  have hextra : isExtraKey k = true := by
    rcases hk with h | h | h <;> subst h <;> decide
  have hmem : (k, v) ∈ fm := Obj.mem_of_get_eq_some fm k v hkv
  have hmem2 : (k, v) ∈ fm.filterKeys isExtraKey :=
    Obj.mem_filterKeys fm isExtraKey k v hmem hextra
  have hnd2 : (fm.filterKeys isExtraKey).keys.Nodup :=
    List.Nodup.sublist (Obj.keys_filterKeys_sublist fm isExtraKey) hnd
  simp only [extractNoteFromMarkdownFile, hfm] at hnote
  by_cases h1 : (fm.getOrNull "id").truthy
  · by_cases h2 : (fm.getOrNull "createdAt").truthy
    · by_cases h3 : (fm.getOrNull "updatedAt").truthy
      · by_cases h4 : jsPathStem file.path = ""
        · simp [h1, h2, h3, h4] at hnote
        · simp only [h1, h2, h3, h4, Bool.not_true, Bool.false_eq_true, if_false,
            if_neg h4, Option.some.injEq] at hnote
          rw [← hnote]
          exact Obj.setAll_get_of_mem (fm.filterKeys isExtraKey) _ k v hmem2 hnd2
      · simp [h1, h2, h3] at hnote
    · simp [h1, h2] at hnote
  · simp [h1] at hnote

/-- The concrete file for the C10 witness: its frontmatter has a
`content` key overriding the body. -/
def c10File : NoteFile :=
  ⟨"---\nid: 1\ncreatedAt: c\nupdatedAt: u\ncontent: override\n---\nbody", "/n/f.md"⟩

/-- The frontmatter of `c10File`. -/
def c10Fm : Obj :=
  [("id", .vStr "1"), ("createdAt", .vStr "c"), ("updatedAt", .vStr "u"),
   ("content", .vStr "override")]

/-- Witness for C10: on `c10File` the resolved note's `content` is the
frontmatter value `override`, not the file body `body`. -/
theorem C10_frontmatter_overrides_computed_witness :
    ((extractNoteFromMarkdownFile c10File).getD []).get "content" =
      some (.vStr "override") :=
  C10_frontmatter_overrides_computed c10File c10Fm
    ((extractNoteFromMarkdownFile c10File).getD []) "content" (.vStr "override")
    (by decide) (by decide) (Or.inl rfl) (by decide) (by decide)

/-! ## Claim C7: serialized tag comparison is order-sensitive -/

/-- Cancellation around the first occurrence of a marker character. -/
theorem append_cons_cancel (c : Char) (x : List Char) :
    ∀ (y r1 r2 : List Char), c ∉ x → c ∉ y →
      x ++ c :: r1 = y ++ c :: r2 → x = y ∧ r1 = r2 := by
  induction x with
  | nil =>
    intro y r1 r2 _ hy h
    cases y with
    | nil => simpa using h
    | cons b y2 =>
      simp only [List.nil_append, List.cons_append, List.cons.injEq] at h
      exact absurd (h.1 ▸ List.mem_cons_self b y2) (h.1 ▸ hy)
  | cons a x2 ih =>
    intro y r1 r2 hx hy h
    cases y with
    | nil =>
      simp only [List.cons_append, List.nil_append, List.cons.injEq] at h
      exact absurd (h.1 ▸ List.mem_cons_self a x2) (h.1 ▸ hx)
    | cons b y2 =>
      simp only [List.cons_append, List.cons.injEq] at h
      obtain ⟨hab, h2⟩ := h
      have hx2 : c ∉ x2 := fun hm => hx (List.mem_cons_of_mem a hm)
      have hy2 : c ∉ y2 := fun hm => hy (List.mem_cons_of_mem b hm)
      obtain ⟨he, hr⟩ := ih y2 r1 r2 hx2 hy2 h2
      exact ⟨by rw [hab, he], hr⟩

theorem jsonQuote_data (s : String) :
    (jsonQuote s).data = '"' :: (s.data ++ ['"']) := by
  show (("\"" ++ s) ++ "\"").data = _
  rw [String.data_append, String.data_append]
  rfl

theorem joinCommaStr_quote_cons_data (x y : String) (rest : List String) :
    (joinCommaStr (jsonQuote x :: jsonQuote y :: rest)).data =
      '"' :: (x.data ++ '"' :: ',' :: (joinCommaStr (jsonQuote y :: rest)).data) := by
  show ((jsonQuote x ++ ",") ++ joinCommaStr (jsonQuote y :: rest)).data = _
  rw [String.data_append, String.data_append, jsonQuote_data]
  simp

/-- The serialized comma-joined quoted form is injective on lists of
quote-free strings. -/
theorem joinCommaStr_quote_inj (xs : List String) :
    ∀ ys : List String,
      (∀ s ∈ xs, '"' ∉ s.data) → (∀ s ∈ ys, '"' ∉ s.data) →
      joinCommaStr (xs.map jsonQuote) = joinCommaStr (ys.map jsonQuote) →
      xs = ys := by
  induction xs with
  | nil =>
    intro ys _ _ h
    cases ys with
    | nil => rfl
    | cons y ys2 =>
      cases ys2 with
      | nil =>
        have hd := congrArg String.data h
        simp only [List.map_nil, List.map_cons, joinCommaStr] at hd
        rw [jsonQuote_data] at hd
        simp at hd
      | cons y2 r =>
        have hd := congrArg String.data h
        simp only [List.map_nil, List.map_cons, joinCommaStr_quote_cons_data] at hd
        simp [joinCommaStr] at hd
  | cons x xs2 ih =>
    intro ys hx hy h
    cases ys with
    | nil =>
      cases xs2 with
      | nil =>
        have hd := congrArg String.data h
        simp only [List.map_nil, List.map_cons, joinCommaStr] at hd
        rw [jsonQuote_data] at hd
        simp at hd
      | cons x2 r =>
        have hd := congrArg String.data h
        simp only [List.map_nil, List.map_cons, joinCommaStr_quote_cons_data] at hd
        simp [joinCommaStr] at hd
    | cons y ys2 =>
      have hqx : '"' ∉ x.data := hx x (by simp)
      have hqy : '"' ∉ y.data := hy y (by simp)
      cases xs2 with
      | nil =>
        cases ys2 with
        | nil =>
          have hd := congrArg String.data h
          simp only [List.map_cons, List.map_nil, joinCommaStr, jsonQuote_data] at hd
          injection hd with h1 h2
          have h3 : x.data ++ '"' :: ([] : List Char) = y.data ++ '"' :: [] := by
            simpa using h2
          obtain ⟨he, _⟩ := append_cons_cancel '"' x.data y.data [] [] hqx hqy h3
          have hxy : x = y := congrArg String.mk he
          rw [hxy]
        | cons y2 r =>
          have hd := congrArg String.data h
          rw [show (x :: ([] : List String)).map jsonQuote = [jsonQuote x] from rfl,
            show (y :: y2 :: r).map jsonQuote = jsonQuote y :: jsonQuote y2 :: r.map jsonQuote
              from rfl, joinCommaStr_quote_cons_data] at hd
          simp only [joinCommaStr, jsonQuote_data] at hd
          injection hd with h1 h2
          have h3 : x.data ++ '"' :: ([] : List Char) =
              y.data ++ '"' :: (',' :: (joinCommaStr (jsonQuote y2 :: r.map jsonQuote)).data) := by
            simpa using h2
          obtain ⟨_, hr⟩ := append_cons_cancel '"' x.data y.data _ _ hqx hqy h3
          cases hr
      | cons x2 r1 =>
        cases ys2 with
        | nil =>
          have hd := congrArg String.data h
          rw [show (x :: x2 :: r1).map jsonQuote = jsonQuote x :: jsonQuote x2 :: r1.map jsonQuote
              from rfl, joinCommaStr_quote_cons_data] at hd
          simp only [joinCommaStr, jsonQuote_data] at hd
          injection hd with h1 h2
          have h3 : x.data ++ '"' :: (',' :: (joinCommaStr (jsonQuote x2 :: r1.map jsonQuote)).data) =
              y.data ++ '"' :: ([] : List Char) := by
            simpa using h2
          obtain ⟨_, hr⟩ := append_cons_cancel '"' x.data y.data _ _ hqx hqy h3
          cases hr
        | cons y2 r2 =>
          have hd := congrArg String.data h
          rw [show (x :: x2 :: r1).map jsonQuote = jsonQuote x :: jsonQuote x2 :: r1.map jsonQuote
              from rfl,
            show (y :: y2 :: r2).map jsonQuote = jsonQuote y :: jsonQuote y2 :: r2.map jsonQuote
              from rfl, joinCommaStr_quote_cons_data, joinCommaStr_quote_cons_data] at hd
          injection hd with h1 h2
          obtain ⟨he, hr⟩ := append_cons_cancel '"' x.data y.data _ _ hqx hqy h2
          have hxy : x = y := congrArg String.mk he
          injection hr with h3 h4
          have htail : joinCommaStr ((x2 :: r1).map jsonQuote) =
              joinCommaStr ((y2 :: r2).map jsonQuote) := by
            apply congrArg String.mk at h4
            simpa using h4
          have := ih (y2 :: r2) (fun s hs => hx s (List.mem_cons_of_mem x hs))
            (fun s hs => hy s (List.mem_cons_of_mem y hs)) htail
          rw [hxy, this]

/-- C7: for every matched local/remote pair whose tag sequences contain
the same elements in different orders, `findConflicts` reports a conflict
for that pair containing `tags` in its `fieldDiffs` — the comparison
serializes the sequences and is order-sensitive, not set-based.  (The
strings are restricted to quote-free ones, where the modelled
`JSON.stringify` agrees with the real one.) -/
theorem C7_tags_order_sensitive (notes : List ScanEntry) (remoteNotes : List Obj)
    (e : ScanEntry) (r : Obj) (xs ys : List String)
    (he : e ∈ notes)
    (hfind : remoteNotes.find? (fun rec => rec.get "id" == e.note.get "id") = some r)
    (hl : e.note.get "tags" = some (.vStrList xs))
    (hrt : r.get "tags" = some (.vStrList ys))
    (hperm : xs.Perm ys) (hne : xs ≠ ys)
    (hq1 : ∀ s ∈ xs, '"' ∉ s.data) (hq2 : ∀ s ∈ ys, '"' ∉ s.data) :
    ∃ c ∈ findConflictsPure notes remoteNotes,
      c.localNote = e.note ∧ "tags" ∈ c.conflictType := by
  have hts : jsonStringify (jsTagsDefault r) ≠ jsonStringify (jsTagsDefault e.note) := by
    rw [show jsTagsDefault r = .vStrList ys by simp [jsTagsDefault, hrt],
      show jsTagsDefault e.note = .vStrList xs by simp [jsTagsDefault, hl]]
    intro hcontra
    simp only [jsonStringify] at hcontra
    have h1 : joinCommaStr (ys.map jsonQuote) = joinCommaStr (xs.map jsonQuote) := by
      have hd := congrArg String.data hcontra
      rw [String.data_append, String.data_append, String.data_append,
        String.data_append, List.append_assoc, List.append_assoc] at hd
      have h2 := List.append_cancel_left hd
      have h3 := List.append_cancel_right h2
      exact congrArg String.mk h3
    exact hne (joinCommaStr_quote_inj xs ys hq1 hq2 h1.symm)
  have htags : "tags" ∈ conflictTypeOf e.note r := by
    simp only [conflictTypeOf, if_neg hts]
    simp
  have hct : conflictTypeOf e.note r ≠ [] := by
    intro h0
    rw [h0] at htags
    cases htags
  refine ⟨⟨e.note, e.path, r, conflictTypeOf e.note r⟩, ?_, rfl, htags⟩
  refine List.mem_filterMap.mpr ⟨e, he, ?_⟩
  rw [hfind]
  simp only [if_neg hct]

/-- The local note for the C7 witness: tags `["a","b"]`. -/
def c7Note : Obj :=
  [("id", .vStr "1"), ("title", .vStr "t"), ("date", .vStr "d"),
   ("content", .vStr "x"), ("tags", .vStrList ["a", "b"])]

/-- The remote record for the C7 witness: tags `["b","a"]`. -/
def c7Remote : Obj :=
  [("id", .vStr "1"), ("title", .vStr "t"), ("date", .vStr "d"),
   ("content", .vStr "x"), ("tags", .vStrList ["b", "a"])]

/-- Witness for C7 at tags `["a","b"]` vs `["b","a"]`. -/
theorem C7_tags_order_sensitive_witness :
    ∃ c ∈ findConflictsPure [⟨c7Note, "/n/t.md"⟩] [c7Remote],
      c.localNote = c7Note ∧ "tags" ∈ c.conflictType :=
  C7_tags_order_sensitive [⟨c7Note, "/n/t.md"⟩] [c7Remote] ⟨c7Note, "/n/t.md"⟩
    c7Remote ["a", "b"] ["b", "a"] (by decide) (by decide) (by decide) (by decide)
    (by decide) (by decide) (by decide) (by decide)

/-! ## Claim C3: the codec round-trip

The round-trip law is proved for notes whose non-body fields lie in the
fragment the modelled `js-yaml` covers: plain keys (non-empty, no colon,
no newline, not starting with whitespace) and plain values (strings that
are not one of the literals `null/true/false/[]`, without newlines or
edge whitespace; string lists with the same restrictions per item). -/

/-- The head of the character list, if any, is not whitespace. -/
def headNotWs (l : List Char) : Prop := l.head?.all (fun a => !isWs a) = true

/-- The last character, if any, is not whitespace. -/
def lastNotWs (l : List Char) : Prop := l.getLast?.all (fun a => !isWs a) = true

/-- A frontmatter key in the modelled yaml fragment. -/
def plainKey (k : String) : Prop :=
  k ≠ "" ∧ ':' ∉ k.data ∧ '\n' ∉ k.data ∧ headNotWs k.data

/-- A plain scalar string in the modelled yaml fragment. -/
def plainStr (s : String) : Prop :=
  s ≠ "" ∧ s ≠ "null" ∧ s ≠ "true" ∧ s ≠ "false" ∧ s ≠ "[]" ∧
  '\n' ∉ s.data ∧ headNotWs s.data ∧ lastNotWs s.data

/-- A plain block-sequence item. -/
def plainItem (x : String) : Prop :=
  x ≠ "" ∧ '\n' ∉ x.data ∧ headNotWs x.data ∧ lastNotWs x.data

/-- A plain frontmatter value. -/
def plainVal : Val → Prop
  | .vNull => True
  | .vBool _ => True
  | .vStr s => plainStr s
  | .vStrList xs => ∀ x ∈ xs, plainItem x

instance (l : List Char) : Decidable (headNotWs l) := inferInstanceAs (Decidable (_ = _))

instance (l : List Char) : Decidable (lastNotWs l) := inferInstanceAs (Decidable (_ = _))

instance (k : String) : Decidable (plainKey k) := inferInstanceAs (Decidable (_ ∧ _))

instance (s : String) : Decidable (plainStr s) := inferInstanceAs (Decidable (_ ∧ _))

instance (x : String) : Decidable (plainItem x) := inferInstanceAs (Decidable (_ ∧ _))

instance (v : Val) : Decidable (plainVal v) := by
  cases v with
  | vNull => exact inferInstanceAs (Decidable True)
  | vBool b => exact inferInstanceAs (Decidable True)
  | vStr s => exact inferInstanceAs (Decidable (plainStr s))
  | vStrList xs => exact inferInstanceAs (Decidable (∀ x ∈ xs, plainItem x))

/-! ### Trim lemmas -/

theorem dropWhile_eq_self_of_head (p : Char → Bool) (l : List Char)
    (h : l.head?.all (fun a => !p a) = true) : l.dropWhile p = l := by
  cases l with
  | nil => rfl
  | cons a rest =>
    simp only [List.head?_cons, Option.all_some, Bool.not_eq_eq_eq_not, Bool.not_true] at h
    simp [List.dropWhile_cons, h]

theorem jsTrim_eq_self (s : String) (h1 : headNotWs s.data) (h2 : lastNotWs s.data) :
    jsTrim s = s := by
  unfold jsTrim
  rw [dropWhile_eq_self_of_head isWs s.data h1]
  rw [dropWhile_eq_self_of_head isWs s.data.reverse
    (by rwa [List.head?_reverse])]
  rw [List.reverse_reverse]

theorem jsTrim_append_newline (s : String) : jsTrim (s ++ "\n") = jsTrim s := by
  show String.mk (((s ++ "\n").data.dropWhile isWs).reverse.dropWhile isWs).reverse =
    String.mk ((s.data.dropWhile isWs).reverse.dropWhile isWs).reverse
  rw [String.data_append]
  rcases hD : s.data.dropWhile isWs with _ | ⟨a, rest⟩
  · rw [List.dropWhile_append, hD]
    rfl
  · rw [List.dropWhile_append, hD]
    have h2 : ((a :: rest) ++ "\n".data).reverse.dropWhile isWs =
        (a :: rest).reverse.dropWhile isWs := by
      rw [List.reverse_append]
      show ('\n' :: (a :: rest).reverse).dropWhile isWs = _
      rw [List.dropWhile_cons]
      simp [isWs]
    simp only [List.isEmpty_cons, if_false, Bool.false_eq_true]
    rw [h2]

/-- A character surviving on some position survives a left `dropWhile` of a
predicate it falsifies. -/
theorem mem_dropWhile_of_not (p : Char → Bool) (l : List Char) (c : Char)
    (hc : p c = false) (h : c ∈ l) : c ∈ l.dropWhile p := by
  induction l with
  | nil => cases h
  | cons a rest ih =>
    rw [List.dropWhile_cons]
    by_cases hp : p a = true
    · rcases List.mem_cons.mp h with h1 | h1
      · rw [h1] at hc
        rw [hc] at hp
        cases hp
      · simp only [hp, if_true]
        exact ih h1
    · simp only [Bool.not_eq_true] at hp
      simp [hp, h]

/-- Non-whitespace characters survive `trim`. -/
theorem mem_jsTrim (s : String) (c : Char) (hc : isWs c = false)
    (h : c ∈ s.data) : c ∈ (jsTrim s).data := by
  unfold jsTrim
  show c ∈ ((s.data.dropWhile isWs).reverse.dropWhile isWs).reverse
  rw [List.mem_reverse]
  apply mem_dropWhile_of_not isWs _ c hc
  rw [List.mem_reverse]
  exact mem_dropWhile_of_not isWs _ c hc h

/-- A line containing a colon never trims to the delimiter. -/
theorem jsTrim_ne_dashes_of_colon (l : String) (h : ':' ∈ l.data) :
    jsTrim l ≠ "---" := by
  intro he
  have h2 : ':' ∈ (jsTrim l).data := mem_jsTrim l ':' (by decide) h
  rw [he] at h2
  exact absurd h2 (by decide)

/-- The right trim keeps a prefix of the list. -/
theorem rightTrim_isPrefix (l : List Char) :
    (l.reverse.dropWhile isWs).reverse <+: l := by
  have h := List.dropWhile_suffix (l := l.reverse) isWs
  have h2 := h.reverse
  rwa [List.reverse_reverse] at h2

/-- An item line `"  - " ++ x` never trims to the delimiter. -/
theorem jsTrim_item_ne_dashes (x : String) : jsTrim ("  - " ++ x) ≠ "---" := by
  intro he
  have hd : ("  - " ++ x).data = ' ' :: ' ' :: '-' :: ' ' :: x.data := by
    rw [String.data_append]
    rfl
  have hL : ("  - " ++ x).data.dropWhile isWs = '-' :: ' ' :: x.data := by
    rw [hd]
    simp [List.dropWhile_cons, isWs]
  have he2 := congrArg String.data he
  unfold jsTrim at he2
  rw [hL] at he2
  have hpre : ("---" : String).data <+: '-' :: ' ' :: x.data := by
    rw [← he2]
    exact rightTrim_isPrefix _
  rcases hpre with ⟨t, ht⟩
  have : ('-' : Char) = ' ' := by
    have := congrArg (fun l => l.get? 1) ht
    simpa using this
  cases this

/-! ### The dumped lines and the parser, entry by entry -/

/-- The lines `yaml.dump` produces for an object (without the final
newline). -/
def dumpLines (o : Obj) : List String :=
  (o.map (fun kv => dumpEntry kv.1 kv.2)).flatten

/-- Finishing the load from a given parser state. -/
def loadFrom (ls : List String) (st : YState) : Option Obj :=
  match ls.foldl yamlStep (some st) with
  | none => none
  | some st2 => some (flushPending st2)

theorem yamlDump_eq (o : Obj) : yamlDump o = joinLines (dumpLines o) ++ "\n" := rfl

theorem yamlLoad_eq (s : String) : yamlLoad s = loadFrom (splitLines s) ⟨[], none⟩ := rfl

theorem takeWhile_append_stop (p : Char → Bool) (l1 l2 : List Char) (a : Char)
    (h1 : ∀ c ∈ l1, p c = true) (h2 : p a = false) :
    (l1 ++ a :: l2).takeWhile p = l1 := by
  induction l1 with
  | nil => simp [List.takeWhile_cons, h2]
  | cons x rest ih =>
    have hx : p x = true := h1 x (by simp)
    simp only [List.cons_append, List.takeWhile_cons, hx, if_true]
    rw [ih (fun c hc => h1 c (List.mem_cons_of_mem x hc))]

theorem dropWhile_append_stop (p : Char → Bool) (l1 l2 : List Char) (a : Char)
    (h1 : ∀ c ∈ l1, p c = true) (h2 : p a = false) :
    (l1 ++ a :: l2).dropWhile p = a :: l2 := by
  induction l1 with
  | nil => simp [List.dropWhile_cons, h2]
  | cons x rest ih =>
    have hx : p x = true := h1 x (by simp)
    simp only [List.cons_append, List.dropWhile_cons, hx, if_true]
    exact ih (fun c hc => h1 c (List.mem_cons_of_mem x hc))

/-- A line that extends a plain key is never a block-sequence item line. -/
theorem beginsWith_item_false (k : String) (x : String) (hk : plainKey k) :
    beginsWith "  - " (k ++ x) = false := by
  obtain ⟨hne, _, _, hh⟩ := hk
  rcases hd : k.data with _ | ⟨a, rest⟩
  · exact absurd (congrArg String.mk hd) hne
  · have ha : isWs a = false := by
      rw [hd] at hh
      simpa [headNotWs] using hh
    show ("  - ".data).isPrefixOf (k ++ x).data = false
    rw [String.data_append, hd]
    have hsp : (' ' == a) = false := by
      apply beq_false_of_ne
      intro he
      rw [← he] at ha
      simp [isWs] at ha
    simp [List.isPrefixOf, hsp]

/-- An item line is recognised as one. -/
theorem beginsWith_item_true (x : String) :
    beginsWith "  - " ("  - " ++ x) = true := by
  show ("  - ".data).isPrefixOf ("  - " ++ x).data = true
  rw [String.data_append]
  simp [List.isPrefixOf]

/-- Consuming the line `k ++ ": " ++ s` from a flushed state parses the
scalar. -/
theorem yamlStep_scalar_line (acc : Obj) (k s : String) (hk : plainKey k) :
    yamlStep (some ⟨acc, none⟩) (k ++ ": " ++ s) =
      some ⟨acc.set k (parseScalar s), none⟩ := by
  have hcolon : ':' ∉ k.data := hk.2.1
  have hall : ∀ c ∈ k.data, (fun c => decide (c ≠ ':')) c = true := by
    intro c hc
    simp only [decide_eq_true_eq]
    intro he
    rw [he] at hc
    exact hcolon hc
  have hitem : beginsWith "  - " (k ++ ": " ++ s) = false := by
    rw [String.append_assoc]
    exact beginsWith_item_false k (": " ++ s) hk
  have hdata : (k ++ ": " ++ s).data = k.data ++ ':' :: ' ' :: s.data := by
    rw [String.data_append, String.data_append]
    simp
  have htake : (k ++ ": " ++ s).data.takeWhile (fun c => decide (c ≠ ':')) = k.data := by
    rw [hdata]
    exact takeWhile_append_stop _ k.data _ ':' hall (by simp)
  have hdrop : (k ++ ": " ++ s).data.dropWhile (fun c => decide (c ≠ ':')) =
      ':' :: ' ' :: s.data := by
    rw [hdata]
    exact dropWhile_append_stop _ k.data _ ':' hall (by simp)
  unfold yamlStep
  rw [hitem]
  simp only [Bool.false_eq_true, if_false, htake, hdrop]
  rfl

/-- Consuming the bare header line `k ++ ":"` opens a pending block
sequence. -/
theorem yamlStep_header_line (acc : Obj) (k : String) (hk : plainKey k) :
    yamlStep (some ⟨acc, none⟩) (k ++ ":") = some ⟨acc, some (k, [])⟩ := by
  have hcolon : ':' ∉ k.data := hk.2.1
  have hall : ∀ c ∈ k.data, (fun c => decide (c ≠ ':')) c = true := by
    intro c hc
    simp only [decide_eq_true_eq]
    intro he
    rw [he] at hc
    exact hcolon hc
  have hitem : beginsWith "  - " (k ++ ":") = false :=
    beginsWith_item_false k ":" hk
  have hdata : (k ++ ":").data = k.data ++ ':' :: ([] : List Char) := by
    rw [String.data_append]
  have htake : (k ++ ":").data.takeWhile (fun c => decide (c ≠ ':')) = k.data := by
    rw [hdata]
    exact takeWhile_append_stop _ k.data _ ':' hall (by simp)
  have hdrop : (k ++ ":").data.dropWhile (fun c => decide (c ≠ ':')) = [':'] := by
    rw [hdata]
    exact dropWhile_append_stop _ k.data _ ':' hall (by simp)
  unfold yamlStep
  rw [hitem]
  simp only [Bool.false_eq_true, if_false, htake, hdrop]
  rfl

/-- Consuming a run of item lines accumulates the items (reversed) onto the
pending block sequence. -/
theorem yamlStep_items (items : List String) (k : String) (p : List String)
    (acc : Obj) (rest : List String) :
    (items.map (fun x => "  - " ++ x) ++ rest).foldl yamlStep
        (some ⟨acc, some (k, p)⟩) =
      rest.foldl yamlStep (some ⟨acc, some (k, items.reverse ++ p)⟩) := by
  induction items generalizing p with
  | nil => rfl
  | cons x xs ih =>
    have hstep : yamlStep (some ⟨acc, some (k, p)⟩) ("  - " ++ x) =
        some ⟨acc, some (k, x :: p)⟩ := by
      unfold yamlStep
      rw [beginsWith_item_true]
      simp only [if_true]
      have hx : String.mk (("  - " ++ x).data.drop 4) = x := by
        rw [String.data_append]
        rfl
      rw [hx]
    simp only [List.map_cons, List.cons_append, List.foldl_cons, hstep]
    rw [ih (x :: p)]
    simp

/-- A non-item line behaves the same from any state with the same flushed
accumulator. -/
theorem yamlStep_flush (st : YState) (line : String)
    (h : beginsWith "  - " line = false) :
    yamlStep (some st) line = yamlStep (some ⟨flushPending st, none⟩) line := by
  unfold yamlStep
  rw [h]
  simp only [Bool.false_eq_true, if_false]
  rfl

/-- The first line of `ls`, if any, is not an item line. -/
def noItemHead (ls : List String) : Prop :=
  ∀ l rest, ls = l :: rest → beginsWith "  - " l = false

theorem loadFrom_flush (ls : List String) (st : YState) (h : noItemHead ls) :
    loadFrom ls st = loadFrom ls ⟨flushPending st, none⟩ := by
  cases ls with
  | nil =>
    show some (flushPending st) = some (flushPending ⟨flushPending st, none⟩)
    rfl
  | cons l rest =>
    unfold loadFrom
    simp only [List.foldl_cons]
    rw [yamlStep_flush st l (h l rest rfl)]

theorem loadFrom_cons (l : String) (ls : List String) (st st2 : YState)
    (h : yamlStep (some st) l = some st2) :
    loadFrom (l :: ls) st = loadFrom ls st2 := by
  unfold loadFrom
  rw [List.foldl_cons, h]

theorem loadFrom_items (items : List String) (k : String) (p : List String)
    (acc : Obj) (ls : List String) :
    loadFrom (items.map (fun x => "  - " ++ x) ++ ls) ⟨acc, some (k, p)⟩ =
      loadFrom ls ⟨acc, some (k, items.reverse ++ p)⟩ := by
  unfold loadFrom
  rw [yamlStep_items]

theorem parseScalar_plain (s : String) (hs : plainStr s) : parseScalar s = .vStr s := by
  obtain ⟨h0, h1, h2, h3, h4, _⟩ := hs
  unfold parseScalar
  rw [if_neg h1, if_neg h2, if_neg h3, if_neg h4]

/-- Every first line of a dumped entry extends its key. -/
theorem dumpEntry_headD_shape (k : String) (v : Val) :
    ∃ x, (dumpEntry k v).headD "" = k ++ x := by
  cases v with
  | vNull => exact ⟨": null", rfl⟩
  | vBool b => cases b with
    | true => exact ⟨": true", rfl⟩
    | false => exact ⟨": false", rfl⟩
  | vStr s => exact ⟨": " ++ s, String.append_assoc k ": " s⟩
  | vStrList xs => cases xs with
    | nil => exact ⟨": []", rfl⟩
    | cons x rest => exact ⟨":", rfl⟩

theorem dumpEntry_ne_nil (k : String) (v : Val) : dumpEntry k v ≠ [] := by
  cases v with
  | vNull => simp [dumpEntry]
  | vBool b => cases b <;> simp [dumpEntry]
  | vStr s => simp [dumpEntry]
  | vStrList xs => cases xs <;> simp [dumpEntry]

theorem noItemHead_dumpEntry_append (k : String) (v : Val) (hk : plainKey k)
    (rest : List String) : noItemHead (dumpEntry k v ++ rest) := by
  intro l rest2 h
  obtain ⟨x, hx⟩ := dumpEntry_headD_shape k v
  have hl : l = k ++ x := by
    rcases hd : dumpEntry k v with _ | ⟨a, tail⟩
    · exact absurd hd (dumpEntry_ne_nil k v)
    · rw [hd, List.cons_append] at h
      injection h with h1 _
      rw [hd] at hx
      simp only [List.headD_cons] at hx
      rw [← h1, hx]
  rw [hl]
  exact beginsWith_item_false k x hk

theorem noItemHead_dumpLines_append (o : Obj) (rest : List String)
    (hplain : ∀ kv ∈ o, plainKey kv.1 ∧ plainVal kv.2)
    (hrest : noItemHead rest) : noItemHead (dumpLines o ++ rest) := by
  cases o with
  | nil => simpa [dumpLines] using hrest
  | cons kv o2 =>
    obtain ⟨k, v⟩ := kv
    have hk : plainKey k := (hplain (k, v) (List.mem_cons_self _ _)).1
    have he : dumpLines ((k, v) :: o2) ++ rest = dumpEntry k v ++ (dumpLines o2 ++ rest) := by
      show ((dumpEntry k v) :: (o2.map (fun kv => dumpEntry kv.1 kv.2))).flatten ++ rest = _
      rw [List.flatten_cons, List.append_assoc]
      rfl
    rw [he]
    exact noItemHead_dumpEntry_append k v hk _

/-- The load of the dumped lines of a plain object, continued with any
non-item tail, accumulates exactly the object's entries via sequential
assignment. -/
theorem loadFrom_dumpLines (o : Obj) :
    ∀ (acc : Obj) (rest : List String),
      (∀ kv ∈ o, plainKey kv.1 ∧ plainVal kv.2) →
      noItemHead rest →
      loadFrom (dumpLines o ++ rest) ⟨acc, none⟩ = loadFrom rest ⟨acc.setAll o, none⟩ := by
  induction o with
  | nil => intro acc rest _ _; rfl
  | cons kv o2 ih =>
    intro acc rest hplain hrest
    obtain ⟨k, v⟩ := kv
    have hk : plainKey k := (hplain (k, v) (List.mem_cons_self _ _)).1
    have hv : plainVal v := (hplain (k, v) (List.mem_cons_self _ _)).2
    have hplain2 : ∀ kv ∈ o2, plainKey kv.1 ∧ plainVal kv.2 :=
      fun kv2 h2 => hplain kv2 (List.mem_cons_of_mem _ h2)
    have hsetAll : acc.setAll ((k, v) :: o2) = (acc.set k v).setAll o2 := rfl
    have hsplit : dumpLines ((k, v) :: o2) ++ rest = dumpEntry k v ++ (dumpLines o2 ++ rest) := by
      show ((dumpEntry k v) :: (o2.map (fun kv => dumpEntry kv.1 kv.2))).flatten ++ rest = _
      rw [List.flatten_cons, List.append_assoc]
      rfl
    rw [hsplit, hsetAll]
    cases v with
    | vNull =>
      show loadFrom ((k ++ ": null") :: (dumpLines o2 ++ rest)) ⟨acc, none⟩ = _
      rw [loadFrom_cons _ _ _ ⟨acc.set k .vNull, none⟩ ?hstep]
      · exact ih (acc.set k .vNull) rest hplain2 hrest
      case hstep =>
        rw [show (k ++ ": null") = (k ++ ": " ++ "null") from
          (String.append_assoc k ": " "null").symm]
        exact yamlStep_scalar_line acc k "null" hk
    | vBool b =>
      cases b with
      | true =>
        show loadFrom ((k ++ ": true") :: (dumpLines o2 ++ rest)) ⟨acc, none⟩ = _
        rw [loadFrom_cons _ _ _ ⟨acc.set k (.vBool true), none⟩ ?hstept]
        · exact ih (acc.set k (.vBool true)) rest hplain2 hrest
        case hstept =>
          rw [show (k ++ ": true") = (k ++ ": " ++ "true") from
            (String.append_assoc k ": " "true").symm]
          exact yamlStep_scalar_line acc k "true" hk
      | false =>
        show loadFrom ((k ++ ": false") :: (dumpLines o2 ++ rest)) ⟨acc, none⟩ = _
        rw [loadFrom_cons _ _ _ ⟨acc.set k (.vBool false), none⟩ ?hstepf]
        · exact ih (acc.set k (.vBool false)) rest hplain2 hrest
        case hstepf =>
          rw [show (k ++ ": false") = (k ++ ": " ++ "false") from
            (String.append_assoc k ": " "false").symm]
          exact yamlStep_scalar_line acc k "false" hk
    | vStr s =>
      show loadFrom ((k ++ ": " ++ s) :: (dumpLines o2 ++ rest)) ⟨acc, none⟩ = _
      rw [loadFrom_cons _ _ _ ⟨acc.set k (.vStr s), none⟩ ?hsteps]
      · exact ih (acc.set k (.vStr s)) rest hplain2 hrest
      case hsteps =>
        rw [show (some ⟨acc.set k (.vStr s), none⟩ : Option YState) =
          some ⟨acc.set k (parseScalar s), none⟩ from by rw [parseScalar_plain s hv]]
        exact yamlStep_scalar_line acc k s hk
    | vStrList xs =>
      cases xs with
      | nil =>
        show loadFrom ((k ++ ": []") :: (dumpLines o2 ++ rest)) ⟨acc, none⟩ = _
        rw [loadFrom_cons _ _ _ ⟨acc.set k (.vStrList []), none⟩ ?hstepe]
        · exact ih (acc.set k (.vStrList [])) rest hplain2 hrest
        case hstepe =>
          rw [show (k ++ ": []") = (k ++ ": " ++ "[]") from
            (String.append_assoc k ": " "[]").symm]
          exact yamlStep_scalar_line acc k "[]" hk
      | cons x xs2 =>
        show loadFrom ((k ++ ":") :: ((x :: xs2).map (fun y => "  - " ++ y) ++
          (dumpLines o2 ++ rest))) ⟨acc, none⟩ = _
        rw [loadFrom_cons _ _ _ ⟨acc, some (k, [])⟩ (yamlStep_header_line acc k hk)]
        rw [loadFrom_items (x :: xs2) k [] acc (dumpLines o2 ++ rest)]
        have hni : noItemHead (dumpLines o2 ++ rest) :=
          noItemHead_dumpLines_append o2 rest hplain2 hrest
        rw [loadFrom_flush _ _ hni]
        have hflush : flushPending ⟨acc, some (k, (x :: xs2).reverse ++ [])⟩ =
            acc.set k (.vStrList (x :: xs2)) := by
          rcases hrev : (x :: xs2).reverse with _ | ⟨a, b⟩
          · exact absurd hrev (by simp)
          · rw [List.append_nil]
            show acc.set k (.vStrList (a :: b).reverse) = _
            rw [← hrev, List.reverse_reverse]
        rw [hflush]
        exact ih (acc.set k (.vStrList (x :: xs2))) rest hplain2 hrest

theorem no_newline_append (a b : String) (ha : '\n' ∉ a.data) (hb : '\n' ∉ b.data) :
    '\n' ∉ (a ++ b).data := by
  rw [String.data_append]
  intro h
  rcases List.mem_append.mp h with h1 | h1
  · exact ha h1
  · exact hb h1

/-- Every dumped line of a plain entry is newline-free. -/
theorem dumpEntry_no_newline (k : String) (v : Val) (hk : plainKey k)
    (hv : plainVal v) : ∀ l ∈ dumpEntry k v, '\n' ∉ l.data := by
  have hkn : '\n' ∉ k.data := hk.2.2.1
  cases v with
  | vNull =>
    intro l hl
    simp only [dumpEntry, List.mem_singleton] at hl
    rw [hl]
    exact no_newline_append k ": null" hkn (by decide)
  | vBool b =>
    intro l hl
    cases b with
    | true =>
      simp only [dumpEntry, List.mem_singleton] at hl
      rw [hl]
      exact no_newline_append k ": true" hkn (by decide)
    | false =>
      simp only [dumpEntry, List.mem_singleton] at hl
      rw [hl]
      exact no_newline_append k ": false" hkn (by decide)
  | vStr s =>
    intro l hl
    simp only [dumpEntry, List.mem_singleton] at hl
    rw [hl]
    exact no_newline_append (k ++ ": ") s
      (no_newline_append k ": " hkn (by decide)) hv.2.2.2.2.2.1
  | vStrList xs =>
    cases xs with
    | nil =>
      intro l hl
      simp only [dumpEntry, List.mem_singleton] at hl
      rw [hl]
      exact no_newline_append k ": []" hkn (by decide)
    | cons x xs2 =>
      intro l hl
      simp only [dumpEntry] at hl
      rcases List.mem_cons.mp hl with h1 | h1
      · rw [h1]
        exact no_newline_append k ":" hkn (by decide)
      · obtain ⟨y, hy, hyl⟩ := List.mem_map.mp h1
        rw [← hyl]
        exact no_newline_append "  - " y (by decide) (hv y hy).2.1

/-- No dumped line of a plain entry trims to the delimiter. -/
theorem dumpEntry_ne_dashes (k : String) (v : Val) (hk : plainKey k) :
    ∀ l ∈ dumpEntry k v, jsTrim l ≠ "---" := by
  have hkey : ∀ x : String, ':' ∈ (k ++ ":" ++ x).data := by
    intro x
    rw [String.data_append, String.data_append]
    refine List.mem_append.mpr (Or.inl ?_)
    refine List.mem_append.mpr (Or.inr ?_)
    decide
  have hkey2 : ∀ x : String, jsTrim (k ++ ":" ++ x) ≠ "---" :=
    fun x => jsTrim_ne_dashes_of_colon _ (hkey x)
  cases v with
  | vNull =>
    intro l hl
    simp only [dumpEntry, List.mem_singleton] at hl
    rw [hl, show k ++ ": null" = k ++ ":" ++ " null" from
      (String.append_assoc k ":" " null").symm]
    exact hkey2 " null"
  | vBool b =>
    intro l hl
    cases b with
    | true =>
      simp only [dumpEntry, List.mem_singleton] at hl
      rw [hl, show k ++ ": true" = k ++ ":" ++ " true" from
        (String.append_assoc k ":" " true").symm]
      exact hkey2 " true"
    | false =>
      simp only [dumpEntry, List.mem_singleton] at hl
      rw [hl, show k ++ ": false" = k ++ ":" ++ " false" from
        (String.append_assoc k ":" " false").symm]
      exact hkey2 " false"
  | vStr s =>
    intro l hl
    simp only [dumpEntry, List.mem_singleton] at hl
    rw [hl]
    apply jsTrim_ne_dashes_of_colon
    rw [String.data_append, String.data_append]
    refine List.mem_append.mpr (Or.inl (List.mem_append.mpr (Or.inr ?_)))
    decide
  | vStrList xs =>
    cases xs with
    | nil =>
      intro l hl
      simp only [dumpEntry, List.mem_singleton] at hl
      rw [hl, show k ++ ": []" = k ++ ":" ++ " []" from
        (String.append_assoc k ":" " []").symm]
      exact hkey2 " []"
    | cons x xs2 =>
      intro l hl
      simp only [dumpEntry] at hl
      rcases List.mem_cons.mp hl with h1 | h1
      · rw [h1, show k ++ ":" = k ++ ":" ++ "" from by rw [String.append_empty]]
        exact hkey2 ""
      · obtain ⟨y, hy, hyl⟩ := List.mem_map.mp h1
        rw [← hyl]
        exact jsTrim_item_ne_dashes y

theorem dumpLines_no_newline (o : Obj)
    (hplain : ∀ kv ∈ o, plainKey kv.1 ∧ plainVal kv.2) :
    ∀ l ∈ dumpLines o, '\n' ∉ l.data := by
  intro l hl
  unfold dumpLines at hl
  obtain ⟨B, hB, hlB⟩ := List.mem_flatten.mp hl
  obtain ⟨kv, hkv, hkvB⟩ := List.mem_map.mp hB
  obtain ⟨hk, hv⟩ := hplain kv hkv
  exact dumpEntry_no_newline kv.1 kv.2 hk hv l (hkvB ▸ hlB)

theorem dumpLines_ne_dashes (o : Obj)
    (hplain : ∀ kv ∈ o, plainKey kv.1 ∧ plainVal kv.2) :
    ∀ l ∈ dumpLines o, jsTrim l ≠ "---" := by
  intro l hl
  unfold dumpLines at hl
  obtain ⟨B, hB, hlB⟩ := List.mem_flatten.mp hl
  obtain ⟨kv, hkv, hkvB⟩ := List.mem_map.mp hB
  obtain ⟨hk, _⟩ := hplain kv hkv
  exact dumpEntry_ne_dashes kv.1 kv.2 hk l (hkvB ▸ hlB)

theorem headNotWs_key_append (k x : String) (hk : plainKey k) :
    headNotWs (k ++ x).data := by
  obtain ⟨hne, _, _, hh⟩ := hk
  rcases hd : k.data with _ | ⟨a, rest⟩
  · exact absurd (congrArg String.mk hd) hne
  · rw [String.data_append, hd]
    rw [hd] at hh
    simpa [headNotWs] using hh

theorem lastNotWs_append_right (a b : String) (hb : b.data ≠ [])
    (h : lastNotWs b.data) : lastNotWs (a ++ b).data := by
  rw [String.data_append]
  unfold lastNotWs
  rw [List.getLast?_append_of_ne_nil a.data hb]
  exact h

/-- The last line of a dumped plain entry ends in a non-whitespace
character. -/
theorem dumpEntry_getLastD_lastNotWs (k : String) (v : Val) (hk : plainKey k)
    (hv : plainVal v) : lastNotWs ((dumpEntry k v).getLastD "").data := by
  cases v with
  | vNull =>
    show lastNotWs (k ++ ": null").data
    exact lastNotWs_append_right k ": null" (by decide) (by decide)
  | vBool b =>
    cases b with
    | true =>
      show lastNotWs (k ++ ": true").data
      exact lastNotWs_append_right k ": true" (by decide) (by decide)
    | false =>
      show lastNotWs (k ++ ": false").data
      exact lastNotWs_append_right k ": false" (by decide) (by decide)
  | vStr s =>
    show lastNotWs (k ++ ": " ++ s).data
    have hs : s.data ≠ [] := by
      intro h0
      exact hv.1 (congrArg String.mk h0)
    exact lastNotWs_append_right (k ++ ": ") s hs hv.2.2.2.2.2.2.2
  | vStrList xs =>
    cases xs with
    | nil =>
      show lastNotWs (k ++ ": []").data
      exact lastNotWs_append_right k ": []" (by decide) (by decide)
    | cons x xs2 =>
      have hlast : ∀ d : String, ((x :: xs2).map (fun y => "  - " ++ y)).getLastD d =
          "  - " ++ (x :: xs2).getLastD "" := by
        clear hv
        induction xs2 generalizing x with
        | nil => intro d; rfl
        | cons z zs ih =>
          intro d
          show ((z :: zs).map (fun y => "  - " ++ y)).getLastD ("  - " ++ x) =
            "  - " ++ (z :: zs).getLastD x
          rw [ih z ("  - " ++ x)]
          cases zs with
          | nil => rfl
          | cons w ws => rfl
      show lastNotWs (((k ++ ":") :: (x :: xs2).map (fun y => "  - " ++ y)).getLastD "").data
      rw [List.getLastD_cons, hlast (k ++ ":")]
      have hmem : (x :: xs2).getLastD "" ∈ (x :: xs2) := by
        clear hv hlast
        induction xs2 generalizing x with
        | nil => exact List.mem_singleton.mpr rfl
        | cons z zs ih => exact List.mem_cons_of_mem x (ih z)
      have hitem : plainItem ((x :: xs2).getLastD "") := hv _ hmem
      have hne : ((x :: xs2).getLastD "").data ≠ [] := by
        intro h0
        exact hitem.1 (congrArg String.mk h0)
      exact lastNotWs_append_right "  - " _ hne hitem.2.2.2

theorem map_getLastD_dumpEntry (o : Obj) (kv : String × Val) :
    ((kv :: o).map (fun e => dumpEntry e.1 e.2)).getLastD [] =
      dumpEntry ((kv :: o).getLastD ("", .vNull)).1 ((kv :: o).getLastD ("", .vNull)).2 := by
  induction o generalizing kv with
  | nil => rfl
  | cons e2 o2 ih => exact ih e2

theorem flatten_getLastD (LL : List (List String)) (h : ∀ B ∈ LL, B ≠ []) :
    LL ≠ [] → LL.flatten.getLastD "" = (LL.getLastD []).getLastD "" := by
  induction LL with
  | nil => intro h0; exact absurd rfl h0
  | cons B LL2 ih =>
    intro _
    cases LL2 with
    | nil =>
      show (B ++ [].flatten).getLastD "" = B.getLastD ""
      rw [List.flatten_nil, List.append_nil]
    | cons B2 LL3 =>
      have h2 : ∀ C ∈ B2 :: LL3, C ≠ [] := fun C hC => h C (List.mem_cons_of_mem B hC)
      have h3 : (B2 :: LL3).flatten ≠ [] := by
        intro h0
        have hB2 : B2 ≠ [] := h2 B2 (List.mem_cons_self _ _)
        rcases hB2d : B2 with _ | ⟨l, t⟩
        · exact hB2 hB2d
        · rw [hB2d] at h0
          simp [List.flatten_cons] at h0
      show (B ++ (B2 :: LL3).flatten).getLastD "" = _
      have h4 : (B ++ (B2 :: LL3).flatten).getLastD "" = (B2 :: LL3).flatten.getLastD "" := by
        rw [List.getLastD_eq_getLast?, List.getLastD_eq_getLast?,
          List.getLast?_append_of_ne_nil B h3]
      rw [h4, ih h2 (by simp)]
      rfl

theorem flatten_headD (B : List String) (LL : List (List String)) (hB : B ≠ []) :
    ((B :: LL).flatten).headD "" = B.headD "" := by
  rcases hBd : B with _ | ⟨l, t⟩
  · exact absurd hBd hB
  · rfl

theorem joinLines_data_head? (a : String) (rest : List String) (ha : a.data ≠ []) :
    (joinLines (a :: rest)).data.head? = a.data.head? := by
  cases rest with
  | nil => rfl
  | cons b rest2 =>
    show (joinSep '\n' (a.data :: (b :: rest2).map String.data)).head? = a.data.head?
    rw [show joinSep '\n' (a.data :: (b :: rest2).map String.data) =
      a.data ++ '\n' :: joinSep '\n' ((b :: rest2).map String.data) from rfl]
    exact List.head?_append_of_ne_nil a.data ha

theorem joinLines_data_getLast? (dl : List String) (hne : dl ≠ [])
    (hlast : (dl.getLastD "").data ≠ []) :
    (joinLines dl).data.getLast? = (dl.getLastD "").data.getLast? := by
  induction dl with
  | nil => exact absurd rfl hne
  | cons a rest ih =>
    cases rest with
    | nil => rfl
    | cons b rest2 =>
      have hlast2 : ((b :: rest2).getLastD "").data ≠ [] := by
        rw [show ((a :: b :: rest2).getLastD "") = ((b :: rest2).getLastD "") from rfl] at hlast
        exact hlast
      have ih2 := ih (by simp) hlast2
      show (joinSep '\n' (a.data :: (b :: rest2).map String.data)).getLast? = _
      rw [show joinSep '\n' (a.data :: (b :: rest2).map String.data) =
        a.data ++ '\n' :: joinSep '\n' ((b :: rest2).map String.data) from rfl]
      rw [List.getLast?_append_of_ne_nil a.data (by simp)]
      have h3 : (joinLines (b :: rest2)).data ≠ [] := by
        intro h0
        have := congrArg List.getLast? h0
        rw [ih2] at this
        rcases hgl : ((b :: rest2).getLastD "").data with _ | ⟨c, t⟩
        · exact hlast2 hgl
        · rw [hgl] at this
          simp at this
      show ('\n' :: (joinLines (b :: rest2)).data).getLast? = _
      rw [show ('\n' :: (joinLines (b :: rest2)).data) =
        ['\n'] ++ (joinLines (b :: rest2)).data from rfl]
      rw [List.getLast?_append_of_ne_nil ['\n'] h3]
      exact ih2

theorem joinLines_splitLines (s : String) : joinLines (splitLines s) = s := by
  unfold joinLines splitLines
  rw [List.map_map]
  rw [show (String.data ∘ String.mk) = id from rfl, List.map_id]
  rw [joinSep_splitChar]

theorem splitLines_joinLines (xs : List String) (hne : xs ≠ [])
    (hfree : ∀ x ∈ xs, '\n' ∉ x.data) : splitLines (joinLines xs) = xs := by
  unfold splitLines joinLines
  rw [show (String.mk (joinSep '\n' (xs.map String.data))).data =
    joinSep '\n' (xs.map String.data) from rfl]
  rw [splitChar_joinSep '\n' (xs.map String.data)
    (by simpa using hne)
    (by
      intro p hp
      obtain ⟨x, hx, hxp⟩ := List.mem_map.mp hp
      rw [← hxp]
      exact hfree x hx)]
  rw [List.map_map, show (String.mk ∘ String.data) = id from rfl, List.map_id]

theorem joinSep_cons_of_ne_nil (c : Char) (a : List Char) (L : List (List Char))
    (h : L ≠ []) : joinSep c (a :: L) = a ++ c :: joinSep c L := by
  cases L with
  | nil => exact absurd rfl h
  | cons b rest => rfl

/-- Reassociating the four-part join of `formatNoteAsMarkdown` into a flat
line list. -/
theorem joinLines_four (fm body : List String) (hfm : fm ≠ []) (hbody : body ≠ []) :
    joinLines ["---", joinLines fm, "---", joinLines body] =
      joinLines ("---" :: fm ++ "---" :: body) := by
  unfold joinLines
  apply congrArg String.mk
  have hfmd : fm.map String.data ≠ [] := by simpa using hfm
  have hbodyd : body.map String.data ≠ [] := by simpa using hbody
  have hL : ("---" :: fm ++ "---" :: body).map String.data =
      ("---".data :: fm.map String.data) ++ ("---".data :: body.map String.data) := by
    simp
  rw [hL]
  rw [joinSep_append '\n' _ _ (by simp) (by simp)]
  rw [joinSep_cons_of_ne_nil '\n' "---".data (fm.map String.data) hfmd]
  rw [joinSep_cons_of_ne_nil '\n' "---".data (body.map String.data) hbodyd]
  show "---".data ++ '\n' :: (joinSep '\n' (fm.map String.data) ++ '\n' ::
    ("---".data ++ '\n' :: joinSep '\n' (body.map String.data))) = _
  simp [List.append_assoc]

/-- `setAll` onto disjoint keys is list concatenation. -/
theorem setAll_eq_append (e : Obj) : ∀ (o : Obj),
    (∀ k ∈ e.keys, k ∉ o.keys) → e.keys.Nodup → o.setAll e = List.append o e := by
  induction e with
  | nil =>
    intro o _ _
    exact (List.append_nil o).symm
  | cons kv rest ih =>
    intro o hdisj hnd
    obtain ⟨k, v⟩ := kv
    have hk : k ∉ o.keys := hdisj k (by simp [Obj.keys])
    have hset : o.set k v = List.append o [(k, v)] := by
      clear hdisj hnd ih
      induction o with
      | nil => rfl
      | cons e2 o2 ih2 =>
        obtain ⟨k2, v2⟩ := e2
        have hne : k2 ≠ k := by
          intro he
          exact hk (by simp [Obj.keys, he])
        have hk2 : k ∉ Obj.keys o2 := by
          intro hmem
          exact hk (by simp [Obj.keys]; right; simpa [Obj.keys] using hmem)
        show Obj.set ((k2, v2) :: o2) k v = _
        rw [Obj.set, if_neg hne, ih2 hk2]
        rfl
    have hnd1 : k ∉ Obj.keys rest ∧ (Obj.keys rest).Nodup := by
      simpa [Obj.keys] using hnd
    show Obj.setAll (o.set k v) rest = _
    rw [ih (o.set k v) ?hdisj2 hnd1.2, hset]
    · show List.append (List.append o [(k, v)]) rest = List.append o ((k, v) :: rest)
      simp
    case hdisj2 =>
      intro k2 hk2
      have hk2o : k2 ∉ Obj.keys o := hdisj k2 (by simp [Obj.keys]; right; simpa [Obj.keys] using hk2)
      have hk2k : k2 ≠ k := by
        intro he
        rw [he] at hk2
        exact hnd1.1 hk2
      have hkeys : (o.set k v).keys = Obj.keys o ++ [k] := by
        rw [hset]
        show List.map Prod.fst (List.append o [(k, v)]) = _
        simp [Obj.keys]
      rw [hkeys]
      intro hmem
      rcases List.mem_append.mp hmem with h1 | h1
      · exact hk2o h1
      · exact hk2k (by simpa using h1)

theorem setAll_nil_eq_self (o : Obj) (hnd : o.keys.Nodup) :
    Obj.setAll ([] : Obj) o = o := by
  rw [setAll_eq_append o ([] : Obj) (by intro k _; simp [Obj.keys]) hnd]
  rfl

theorem getLastD_mem_cons (x : String × Val) (xs : List (String × Val))
    (d : String × Val) : (x :: xs).getLastD d ∈ x :: xs := by
  induction xs generalizing x with
  | nil => exact List.mem_singleton.mpr rfl
  | cons y ys ih => exact List.mem_cons_of_mem x (ih y)

theorem dumpEntry_getLastD_ne_empty (k : String) (v : Val) (hk : plainKey k) :
    ((dumpEntry k v).getLastD "").data ≠ [] := by
  have hkd : k.data ≠ [] := by
    intro h0
    exact hk.1 (congrArg String.mk h0)
  have happ : ∀ x : String, (k ++ x).data ≠ [] := by
    intro x h0
    rw [String.data_append] at h0
    exact hkd (List.append_eq_nil.mp h0).1
  cases v with
  | vNull => exact happ ": null"
  | vBool b => cases b with
    | true => exact happ ": true"
    | false => exact happ ": false"
  | vStr s =>
    show (k ++ ": " ++ s).data ≠ []
    intro h0
    rw [String.data_append, String.data_append] at h0
    exact hkd (List.append_eq_nil.mp (List.append_eq_nil.mp h0).1).1
  | vStrList xs =>
    cases xs with
    | nil => exact happ ": []"
    | cons x xs2 =>
      have hlast : ∀ d : String, ((x :: xs2).map (fun y => "  - " ++ y)).getLastD d =
          "  - " ++ (x :: xs2).getLastD "" := by
        induction xs2 generalizing x with
        | nil => intro d; rfl
        | cons z zs ih =>
          intro d
          show ((z :: zs).map (fun y => "  - " ++ y)).getLastD ("  - " ++ x) =
            "  - " ++ (z :: zs).getLastD x
          rw [ih z ("  - " ++ x)]
          cases zs with
          | nil => rfl
          | cons w ws => rfl
      show (((k ++ ":") :: (x :: xs2).map (fun y => "  - " ++ y)).getLastD "").data ≠ []
      rw [List.getLastD_cons, hlast (k ++ ":")]
      rw [String.data_append]
      intro h0
      have := (List.append_eq_nil.mp h0).1
      cases this

/-- Trimming the dump of a non-empty plain object removes exactly the
trailing newline. -/
theorem jsTrim_yamlDump (o : Obj) (ho : o ≠ [])
    (hplain : ∀ kv ∈ o, plainKey kv.1 ∧ plainVal kv.2) :
    jsTrim (yamlDump o) = joinLines (dumpLines o) := by
  rw [yamlDump_eq, jsTrim_append_newline]
  rcases ho2 : o with _ | ⟨⟨k1, v1⟩, o2⟩
  · exact absurd ho2 ho
  · subst ho2
    have hk1 : plainKey k1 := (hplain (k1, v1) (List.mem_cons_self _ _)).1
    have hk1d : k1.data ≠ [] := by
      intro h0
      exact hk1.1 (congrArg String.mk h0)
    rcases hD : dumpEntry k1 v1 with _ | ⟨fl, tail⟩
    · exact absurd hD (dumpEntry_ne_nil k1 v1)
    · have hdl : dumpLines ((k1, v1) :: o2) = fl :: (tail ++ dumpLines o2) := by
        show ((dumpEntry k1 v1) :: (o2.map (fun kv => dumpEntry kv.1 kv.2))).flatten =
          fl :: (tail ++ dumpLines o2)
        rw [List.flatten_cons, hD]
        rfl
      obtain ⟨x1, hx1⟩ := dumpEntry_headD_shape k1 v1
      have hfl : fl = k1 ++ x1 := by
        rw [hD] at hx1
        simpa using hx1
      have hfld : fl.data ≠ [] := by
        rw [hfl, String.data_append]
        intro h0
        exact hk1d (List.append_eq_nil.mp h0).1
      apply jsTrim_eq_self
      · unfold headNotWs
        rw [hdl, joinLines_data_head? fl _ hfld, hfl]
        exact headNotWs_key_append k1 x1 hk1
      · have hblocks : ∀ B ∈ ((k1, v1) :: o2).map (fun kv => dumpEntry kv.1 kv.2), B ≠ [] := by
          intro B hB
          obtain ⟨kv, _, hkvB⟩ := List.mem_map.mp hB
          rw [← hkvB]
          exact dumpEntry_ne_nil kv.1 kv.2
        have hlastentry := getLastD_mem_cons (k1, v1) o2 ("", .vNull)
        obtain ⟨hkL, hvL⟩ := hplain _ hlastentry
        have hgl : (dumpLines ((k1, v1) :: o2)).getLastD "" =
            (dumpEntry (((k1, v1) :: o2).getLastD ("", .vNull)).1
              (((k1, v1) :: o2).getLastD ("", .vNull)).2).getLastD "" := by
          unfold dumpLines
          rw [flatten_getLastD _ hblocks (by simp), map_getLastD_dumpEntry]
        have hlne : ((dumpLines ((k1, v1) :: o2)).getLastD "").data ≠ [] := by
          rw [hgl]
          exact dumpEntry_getLastD_ne_empty _ _ hkL
        unfold lastNotWs
        rw [joinLines_data_getLast? _ (by rw [hdl]; simp) hlne, hgl]
        exact dumpEntry_getLastD_lastNotWs _ _ hkL hvL

theorem filterKeys_eq_self (o : Obj) (p : String → Bool)
    (h : ∀ kv ∈ o, p kv.1 = true) : o.filterKeys p = o :=
  List.filter_eq_self.mpr (fun kv hkv => h kv hkv)

theorem splitLines_no_newline (s : String) : ∀ x ∈ splitLines s, '\n' ∉ x.data := by
  intro x hx
  obtain ⟨p, hp, hpx⟩ := List.mem_map.mp hx
  rw [← hpx]
  exact splitChar_pieces_not_mem '\n' s.data p hp

theorem dumpLines_ne_nil (o : Obj) (ho : o ≠ []) : dumpLines o ≠ [] := by
  rcases o with _ | ⟨⟨k, v⟩, o2⟩
  · exact absurd rfl ho
  · show ((dumpEntry k v) :: (o2.map (fun kv => dumpEntry kv.1 kv.2))).flatten ≠ []
    rw [List.flatten_cons]
    intro h0
    exact dumpEntry_ne_nil k v (List.append_eq_nil.mp h0).1

theorem noItemHead_nil : noItemHead [] := by
  intro l rest h
  cases h

/-- C3: the codec round-trip.  For every note whose non-body fields are
plain (in the modelled yaml fragment), with pairwise-distinct keys and no
`_id` key, decoding the encoded form reproduces every field except the
body-bearing `content` field as the frontmatter, and reproduces `content`
exactly as the body. -/
theorem C3_encode_decode_roundtrip (note : Obj) (body : String)
    (hcontent : note.get "content" = some (.vStr body))
    (hnd : note.keys.Nodup)
    (hnoid : "_id" ∉ note.keys)
    (hplain : ∀ kv ∈ note, kv.1 ≠ "content" → plainKey kv.1 ∧ plainVal kv.2)
    (hsome : ∃ kv ∈ note, kv.1 ≠ "content") :
    extractFrontmatterFromMarkdownFile (formatNoteAsMarkdown note) =
      some (note.filterKeys (fun k => k ≠ "content")) ∧
    removeFrontmatterFromMarkdownFile (formatNoteAsMarkdown note) = body := by
  have hid : note.filterKeys (fun k => decide (k ≠ "_id")) = note := by
    apply filterKeys_eq_self
    intro kv hkv
    simp only [decide_eq_true_eq]
    intro he
    exact hnoid (he ▸ (by simpa [Obj.keys] using List.mem_map_of_mem Prod.fst hkv))
  have hfm_plain : ∀ kv ∈ note.filterKeys (fun k => decide (k ≠ "content")),
      plainKey kv.1 ∧ plainVal kv.2 := by
    intro kv hkv
    have h2 := List.mem_filter.mp hkv
    exact hplain kv h2.1 (by simpa using h2.2)
  have hfm_ne : note.filterKeys (fun k => decide (k ≠ "content")) ≠ [] := by
    obtain ⟨kv, hkv, hne⟩ := hsome
    exact List.ne_nil_of_mem (List.mem_filter.mpr ⟨hkv, by simpa using hne⟩)
  have hfm_nd : (note.filterKeys (fun k => decide (k ≠ "content"))).keys.Nodup :=
    List.Nodup.sublist (Obj.keys_filterKeys_sublist note _) hnd
  have hgetstr : note.getStr "content" = body := by
    unfold Obj.getStr
    rw [hcontent]
  have hdl_ne : dumpLines (note.filterKeys (fun k => decide (k ≠ "content"))) ≠ [] :=
    dumpLines_ne_nil _ hfm_ne
  have hdl_nonl := dumpLines_no_newline _ hfm_plain
  have hdl_nodash := dumpLines_ne_dashes _ hfm_plain
  have hfmt : formatNoteAsMarkdown note =
      joinLines ("---" :: dumpLines (note.filterKeys (fun k => decide (k ≠ "content"))) ++
        "---" :: splitLines body) := by
    show joinLines ["---",
      jsTrim (yamlDump ((note.filterKeys (fun k => decide (k ≠ "_id"))).filterKeys
        (fun k => decide (k ≠ "content")))),
      "---", note.getStr "content"] = _
    rw [hid, hgetstr, jsTrim_yamlDump _ hfm_ne hfm_plain]
    conv_lhs => rw [show body = joinLines (splitLines body) from (joinLines_splitLines body).symm]
    exact joinLines_four _ _ hdl_ne (splitLines_ne_nil body)
  have hsplit : splitLines (formatNoteAsMarkdown note) =
      "---" :: (dumpLines (note.filterKeys (fun k => decide (k ≠ "content"))) ++
        "---" :: splitLines body) := by
    rw [hfmt]
    apply splitLines_joinLines
    · simp
    · intro x hx
      rcases List.mem_cons.mp hx with h1 | h1
      · rw [h1]; decide
      · rcases List.mem_append.mp h1 with h2 | h2
        · exact hdl_nonl x h2
        · rcases List.mem_cons.mp h2 with h3 | h3
          · rw [h3]; decide
          · exact splitLines_no_newline body x h3
  have hfmsplit := splitFmLines_append
    (dumpLines (note.filterKeys (fun k => decide (k ≠ "content")))) (splitLines body)
    hdl_nodash
  have hload : yamlLoad (joinLines (dumpLines
      (note.filterKeys (fun k => decide (k ≠ "content"))))) =
      some (note.filterKeys (fun k => decide (k ≠ "content"))) := by
    rw [yamlLoad_eq, splitLines_joinLines _ hdl_ne hdl_nonl]
    rw [show dumpLines (note.filterKeys (fun k => decide (k ≠ "content"))) =
      dumpLines (note.filterKeys (fun k => decide (k ≠ "content"))) ++ [] from
      (List.append_nil _).symm]
    rw [loadFrom_dumpLines _ ([] : Obj) [] hfm_plain noItemHead_nil]
    show some (flushPending ⟨Obj.setAll [] _, none⟩) = _
    rw [show flushPending ⟨Obj.setAll ([] : Obj)
      (note.filterKeys (fun k => decide (k ≠ "content"))), none⟩ =
      Obj.setAll ([] : Obj) (note.filterKeys (fun k => decide (k ≠ "content"))) from rfl]
    rw [setAll_nil_eq_self _ hfm_nd]
  have ht : jsTrim "---" = "---" := by decide
  constructor
  · unfold extractFrontmatterFromMarkdownFile
    rw [hsplit]
    show (if jsTrim "---" = "---" then
      match splitFmLines (dumpLines (note.filterKeys (fun k => decide (k ≠ "content"))) ++
        "---" :: splitLines body) with
      | none => none
      | some (fmLines, _) => yamlLoad (joinLines fmLines)
      else none) = _
    rw [ht, if_pos rfl, hfmsplit]
    exact hload
  · unfold removeFrontmatterFromMarkdownFile
    rw [hsplit]
    show (if jsTrim "---" = "---" then
      match splitFmLines (dumpLines (note.filterKeys (fun k => decide (k ≠ "content"))) ++
        "---" :: splitLines body) with
      | none => formatNoteAsMarkdown note
      | some (_, bodyLines) => joinLines bodyLines
      else formatNoteAsMarkdown note) = _
    rw [ht, if_pos rfl, hfmsplit]
    exact joinLines_splitLines body

/-- The concrete note for the C3 witness (multi-line body, list-valued
tags, boolean `published`). -/
def c3Note : Obj :=
  [("id", .vStr "7"), ("title", .vStr "T"), ("content", .vStr "line1\nline2"),
   ("tags", .vStrList ["a", "b"]), ("published", .vBool true)]

/-- Witness for C3 at `c3Note`. -/
theorem C3_encode_decode_roundtrip_witness :
    extractFrontmatterFromMarkdownFile (formatNoteAsMarkdown c3Note) =
      some (c3Note.filterKeys (fun k => k ≠ "content")) ∧
    removeFrontmatterFromMarkdownFile (formatNoteAsMarkdown c3Note) = "line1\nline2" :=
  C3_encode_decode_roundtrip c3Note "line1\nline2" (by decide) (by decide) (by decide)
    (by decide) ⟨("id", .vStr "7"), by decide, by decide⟩

/-! ## Claim C5: `generateSafeFilename`

The source's unbounded `while` loop tries `stem.md`, then `stem_1.md`,
`stem_2.md`, … until the candidate (lower-cased) is not among the existing
lower-case names.  The loop is modelled with explicit fuel
`|existing| + 2`; the theorem shows that this fuel already suffices — the
candidates are pairwise distinct (case-insensitively), so by pigeonhole a
free one is found — which is exactly the loop's termination argument. -/

/-- A decimal digit character. -/
def digitChar (n : Nat) : Char :=
  match n with
  | 0 => '0' | 1 => '1' | 2 => '2' | 3 => '3' | 4 => '4'
  | 5 => '5' | 6 => '6' | 7 => '7' | 8 => '8' | _ => '9'

/-- Decimal rendering with fuel (the JavaScript template `${counter}` for a
natural counter). -/
def natToDecAux : Nat → Nat → List Char
  | 0, _ => []
  | fuel+1, n =>
    if n < 10 then [digitChar n]
    else natToDecAux fuel (n / 10) ++ [digitChar (n % 10)]

def natToDec (n : Nat) : String := String.mk (natToDecAux (n + 1) n)

/-- The characters the sanitizer keeps (`[a-z0-9_.\-]`). -/
def keepChar (c : Char) : Bool :=
  ('a' ≤ c ∧ c ≤ 'z') ∨ ('0' ≤ c ∧ c ≤ '9') ∨ c = '_' ∨ c = '.' ∨ c = '-'

/-- `.replace(/[^a-z0-9_.\-]+/g, '-')`: each maximal run of disallowed
characters becomes one hyphen. -/
def replaceRunsAux : Bool → List Char → List Char
  | _, [] => []
  | prevBad, c :: rest =>
    if keepChar c then c :: replaceRunsAux false rest
    else if prevBad then replaceRunsAux true rest
    else '-' :: replaceRunsAux true rest

/-- Collapse every run of hyphens to a single hyphen (the second
`replace` of the sanitizer). -/
def collapseHyphens : Bool → List Char → List Char
  | _, [] => []
  | prevH, c :: rest =>
    if c = '-' then
      if prevH then collapseHyphens true rest else '-' :: collapseHyphens true rest
    else c :: collapseHyphens false rest

/-- Strip leading and trailing hyphens (the third `replace` of the
sanitizer). -/
def trimHyphens (l : List Char) : List Char :=
  ((l.dropWhile (fun c => c = '-')).reverse.dropWhile (fun c => c = '-')).reverse

/-- The sanitized title of `generateSafeFilename`
(`(title || 'untitled').toLowerCase().replace(...)...`). -/
def sanitizeTitle (title : String) : String :=
  String.mk (trimHyphens (collapseHyphens false (replaceRunsAux false
    (jsToLower (if title = "" then "untitled" else title)).data)))

/-- The collision candidate for a given counter value:
`` `${safeTitle || noteId}_${counter}.md` ``. -/
def genCandidate (stem : String) (counter : Nat) : String :=
  stem ++ "_" ++ natToDec counter ++ ".md"

/-- The collision `while` loop, with fuel. -/
def genLoop (stem : String) (existing : List String) :
    Nat → Nat → String → String
  | 0, _, current => current
  | fuel+1, counter, current =>
    if existing.contains (jsToLower current) then
      genLoop stem existing fuel (counter+1) (genCandidate stem counter)
    else current

/-- `generateSafeFilename(title, noteId, existingFilenamesLowercase)`
(first module copy and part_001, identical). -/
def generateSafeFilename (title noteId : String) (existing : List String) : String :=
  genLoop (if sanitizeTitle title = "" then noteId else sanitizeTitle title) existing
    (existing.length + 2) 1
    ((if sanitizeTitle title = "" then noteId else sanitizeTitle title) ++ ".md")

/-- The sequence of candidates tried from a given loop state. -/
def seqFrom (stem : String) (counter : Nat) (current : String) : Nat → String
  | 0 => current
  | j+1 => genCandidate stem (counter + j)

def decVal (l : List Char) : Nat := l.foldl (fun a c => 10 * a + (c.toNat - 48)) 0

theorem digitChar_toNat (n : Nat) (h : n < 10) : (digitChar n).toNat - 48 = n := by
  match n with
  | 0 => decide
  | 1 => decide
  | 2 => decide
  | 3 => decide
  | 4 => decide
  | 5 => decide
  | 6 => decide
  | 7 => decide
  | 8 => decide
  | 9 => decide
  | m+10 => omega

theorem decVal_append_digit (l : List Char) (c : Char) :
    decVal (l ++ [c]) = 10 * decVal l + (c.toNat - 48) := by
  unfold decVal
  rw [List.foldl_append]
  rfl

theorem decVal_foldl_general (l : List Char) : ∀ (a : Nat),
    l.foldl (fun a c => 10 * a + (c.toNat - 48)) a =
      a * 10 ^ l.length + decVal l := by
  induction l with
  | nil => intro a; simp [decVal]
  | cons c rest ih =>
    intro a
    show rest.foldl _ (10 * a + (c.toNat - 48)) = _
    rw [ih (10 * a + (c.toNat - 48))]
    show _ = a * 10 ^ (rest.length + 1) + decVal (c :: rest)
    have h2 : decVal (c :: rest) = rest.foldl (fun a c => 10 * a + (c.toNat - 48))
        (10 * 0 + (c.toNat - 48)) := rfl
    rw [h2, ih (10 * 0 + (c.toNat - 48))]
    ring

theorem natToDecAux_val : ∀ (fuel n : Nat), n < fuel →
    decVal (natToDecAux fuel n) = n := by
  intro fuel
  induction fuel with
  | zero => intro n h; omega
  | succ f ih =>
    intro n h
    by_cases h10 : n < 10
    · show decVal (if n < 10 then [digitChar n] else _) = n
      rw [if_pos h10]
      show decVal [digitChar n] = n
      unfold decVal
      simp [digitChar_toNat n h10]
    · show decVal (if n < 10 then _ else natToDecAux f (n / 10) ++ [digitChar (n % 10)]) = n
      rw [if_neg h10]
      rw [decVal_append_digit]
      have hdiv : n / 10 < f := by
        have h1 : n / 10 < n := Nat.div_lt_self (by omega) (by omega)
        omega
      rw [ih (n / 10) hdiv, digitChar_toNat (n % 10) (Nat.mod_lt n (by omega))]
      omega

theorem natToDec_inj (m n : Nat) (h : natToDec m = natToDec n) : m = n := by
  have hd : natToDecAux (m + 1) m = natToDecAux (n + 1) n := by
    injection h
  have h1 := natToDecAux_val (m + 1) m (by omega)
  have h2 := natToDecAux_val (n + 1) n (by omega)
  rw [hd] at h1
  rw [h1] at h2
  exact h2

theorem digitChar_toLower (k : Nat) : Char.toLower (digitChar k) = digitChar k := by
  match k with
  | 0 => decide
  | 1 => decide
  | 2 => decide
  | 3 => decide
  | 4 => decide
  | 5 => decide
  | 6 => decide
  | 7 => decide
  | 8 => decide
  | m+9 =>
    show Char.toLower '9' = '9'
    decide

theorem natToDecAux_succ (f n : Nat) : natToDecAux (f+1) n =
    if n < 10 then [digitChar n] else natToDecAux f (n / 10) ++ [digitChar (n % 10)] := rfl

theorem natToDecAux_chars : ∀ (fuel n : Nat) (c : Char), c ∈ natToDecAux fuel n →
    ∃ k, c = digitChar k := by
  intro fuel
  induction fuel with
  | zero => intro n c h; cases h
  | succ f ih =>
    intro n c h
    rw [natToDecAux_succ] at h
    by_cases h10 : n < 10
    · rw [if_pos h10] at h
      exact ⟨n, (List.mem_singleton.mp h)⟩
    · rw [if_neg h10] at h
      rcases List.mem_append.mp h with h1 | h1
      · exact ih (n / 10) c h1
      · exact ⟨n % 10, List.mem_singleton.mp h1⟩

theorem jsToLower_natToDec (n : Nat) : jsToLower (natToDec n) = natToDec n := by
  unfold jsToLower
  apply congrArg String.mk
  rw [show (natToDec n).data = natToDecAux (n + 1) n from rfl]
  have h : ∀ c ∈ natToDecAux (n + 1) n, Char.toLower c = c := by
    intro c hc
    obtain ⟨k, hk⟩ := natToDecAux_chars (n + 1) n c hc
    rw [hk]
    exact digitChar_toLower k
  calc (natToDecAux (n + 1) n).map Char.toLower
      = (natToDecAux (n + 1) n).map id := List.map_congr_left h
    _ = natToDecAux (n + 1) n := List.map_id _

theorem jsToLower_append (a b : String) :
    (jsToLower (a ++ b)).data = (jsToLower a).data ++ (jsToLower b).data := by
  unfold jsToLower
  rw [show (String.mk ((a ++ b).data.map Char.toLower)).data =
    (a ++ b).data.map Char.toLower from rfl]
  rw [String.data_append, List.map_append]

theorem lower_candidate_data (stem : String) (n : Nat) :
    (jsToLower (genCandidate stem n)).data =
      (jsToLower stem).data ++ '_' :: ((natToDec n).data ++ ['.', 'm', 'd']) := by
  unfold genCandidate
  rw [jsToLower_append, jsToLower_append, jsToLower_append]
  rw [show (jsToLower "_").data = ['_'] from by decide]
  rw [show (jsToLower ".md").data = ['.', 'm', 'd'] from by decide]
  rw [jsToLower_natToDec]
  simp

theorem lower_base_data (stem : String) :
    (jsToLower (stem ++ ".md")).data = (jsToLower stem).data ++ ['.', 'm', 'd'] := by
  rw [jsToLower_append]
  rw [show (jsToLower ".md").data = ['.', 'm', 'd'] from by decide]

/-- The candidate sequence is case-insensitively injective. -/
theorem seqFrom_lower_inj (stem : String) (base : String)
    (hbase : base = stem ++ ".md") (i j : Nat)
    (h : jsToLower (seqFrom stem 1 base i) = jsToLower (seqFrom stem 1 base j)) :
    i = j := by
  have hd := congrArg String.data h
  cases i with
  | zero =>
    cases j with
    | zero => rfl
    | succ j2 =>
      rw [show seqFrom stem 1 base 0 = base from rfl,
        show seqFrom stem 1 base (j2+1) = genCandidate stem (1 + j2) from rfl,
        hbase, lower_base_data, lower_candidate_data] at hd
      have := List.append_cancel_left hd
      cases this
  | succ i2 =>
    cases j with
    | zero =>
      rw [show seqFrom stem 1 base (i2+1) = genCandidate stem (1 + i2) from rfl,
        show seqFrom stem 1 base 0 = base from rfl,
        hbase, lower_base_data, lower_candidate_data] at hd
      have := List.append_cancel_left hd
      cases this
    | succ j2 =>
      rw [show seqFrom stem 1 base (i2+1) = genCandidate stem (1 + i2) from rfl,
        show seqFrom stem 1 base (j2+1) = genCandidate stem (1 + j2) from rfl,
        lower_candidate_data, lower_candidate_data] at hd
      have h1 := List.append_cancel_left hd
      injection h1 with _ h2
      have h3 := List.append_cancel_right h2
      have h4 : natToDec (1 + i2) = natToDec (1 + j2) := congrArg String.mk h3
      have h5 := natToDec_inj (1 + i2) (1 + j2) h4
      omega

/-- If some candidate within the fuel is free, the loop returns a free
name. -/
theorem genLoop_free (existing : List String) (stem : String) :
    ∀ (fuel counter : Nat) (current : String),
      (∃ j, j < fuel ∧
        existing.contains (jsToLower (seqFrom stem counter current j)) = false) →
      existing.contains (jsToLower (genLoop stem existing fuel counter current)) = false := by
  intro fuel
  induction fuel with
  | zero =>
    intro counter current h
    obtain ⟨j, hj, _⟩ := h
    omega
  | succ f ih =>
    intro counter current h
    show existing.contains (jsToLower (if existing.contains (jsToLower current) then
      genLoop stem existing f (counter+1) (genCandidate stem counter) else current)) = false
    by_cases hcur : existing.contains (jsToLower current) = true
    · rw [if_pos hcur]
      apply ih (counter+1) (genCandidate stem counter)
      obtain ⟨j, hj, hfree⟩ := h
      cases j with
      | zero =>
        rw [show seqFrom stem counter current 0 = current from rfl] at hfree
        rw [hcur] at hfree
        cases hfree
      | succ j2 =>
        refine ⟨j2, by omega, ?_⟩
        cases j2 with
        | zero => exact hfree
        | succ j3 =>
          rw [show seqFrom stem (counter+1) (genCandidate stem counter) (j3+1) =
            genCandidate stem (counter + 1 + j3) from rfl]
          rw [show seqFrom stem counter current (j3+1+1) =
            genCandidate stem (counter + (j3+1)) from rfl] at hfree
          rw [show counter + 1 + j3 = counter + (j3 + 1) from by omega]
          exact hfree
    · rw [if_neg hcur]
      simpa using hcur

/-- C5: for every title, note id and finite set of existing lowercase
filenames, `generateSafeFilename` terminates (fuel `|existing| + 2`
suffices for its collision loop) and its result is not a case-insensitive
member of the existing names. -/
theorem C5_safe_filename_avoids_existing (title noteId : String)
    (existing : List String) (hlow : ∀ s ∈ existing, jsToLower s = s) :
    ¬ ∃ s ∈ existing,
      jsToLower s = jsToLower (generateSafeFilename title noteId existing) := by
  have hmain : existing.contains
      (jsToLower (generateSafeFilename title noteId existing)) = false := by
    unfold generateSafeFilename
    apply genLoop_free
    set stem := if sanitizeTitle title = "" then noteId else sanitizeTitle title with hstem
    by_contra hall
    push_neg at hall
    have hall2 : ∀ j, j < existing.length + 2 →
        jsToLower (seqFrom stem 1 (stem ++ ".md") j) ∈ existing := by
      intro j hj
      have := hall j hj
      simpa using this
    let F : Fin (existing.length + 2) → String :=
      fun j => jsToLower (seqFrom stem 1 (stem ++ ".md") j.val)
    have hinj : Set.InjOn F ↑(Finset.univ : Finset (Fin (existing.length + 2))) := by
      intro a _ b _ hab
      have := seqFrom_lower_inj stem (stem ++ ".md") rfl a.val b.val hab
      exact Fin.ext this
    have hsub : Finset.univ.image F ⊆ existing.toFinset := by
      intro x hx
      obtain ⟨j, _, hj⟩ := Finset.mem_image.mp hx
      rw [← hj]
      exact List.mem_toFinset.mpr (hall2 j.val j.isLt)
    have hcard1 : (Finset.univ.image F).card = existing.length + 2 := by
      rw [Finset.card_image_of_injOn hinj]
      simp
    have hcard2 := Finset.card_le_card hsub
    have hcard3 := List.toFinset_card_le existing
    omega
  intro hcontra
  obtain ⟨s, hs, heq⟩ := hcontra
  have h1 : jsToLower (generateSafeFilename title noteId existing) ∈ existing := by
    rw [← heq, hlow s hs]
    exact hs
  rw [show (existing.contains (jsToLower (generateSafeFilename title noteId existing))) =
    true from by simpa using h1] at hmain
  cases hmain

/-- Witness for C5 at title `"My Note"` with existing names
`my-note.md`, `my-note_1.md` (the spec's own collision scenario). -/
theorem C5_safe_filename_avoids_existing_witness :
    (∀ s ∈ ["my-note.md", "my-note_1.md"], jsToLower s = s) ∧
    ¬ ∃ s ∈ ["my-note.md", "my-note_1.md"],
      jsToLower s = jsToLower (generateSafeFilename "My Note" "id9"
        ["my-note.md", "my-note_1.md"]) :=
  ⟨by decide,
   C5_safe_filename_avoids_existing "My Note" "id9" ["my-note.md", "my-note_1.md"]
     (by decide)⟩

/-! ## Claim C9: `saveNoteToFs` keeps note ids unique on disk

The filesystem is a list of files; `exists` / `writeFile` are modelled on
it, the single possible overwrite prompt by one boolean answer, and
`generateNoteFilename`'s random suffixes by an oracle list plus fuel. -/

/-- `exists(path)`. -/
def fsExists (fs : List LocalFile) (p : String) : Bool :=
  fs.any (fun f => f.path = p)

/-- `writeFile(path, content)`: replace in place, or create (with the
given modification time). -/
def writeFileFs (fs : List LocalFile) (p content mtime : String) : List LocalFile :=
  if fs.any (fun f => f.path = p) then
    fs.map (fun f => if f.path = p then ⟨p, content, f.mtime⟩ else f)
  else fs ++ [⟨p, content, mtime⟩]

/-- The sanitizer of `generateNoteFilename` (same replace chain, but no
`untitled` fallback). -/
def sanitizeTitleV2 (title : String) : String :=
  String.mk (trimHyphens (collapseHyphens false (replaceRunsAux false
    (jsToLower title).data)))

/-- The random-suffix loop of `generateNoteFilename` (part_002): while the
candidate path exists, append a random suffix drawn from the oracle.  The
real loop's termination depends on randomness; it is modelled with fuel. -/
def generateNoteFilenameLoop (fs : List LocalFile) (dir : String) :
    Nat → String → List String → String
  | 0, safeTitle, _ => safeTitle ++ ".md"
  | fuel+1, safeTitle, rnds =>
    if fsExists fs (dir ++ "/" ++ (safeTitle ++ ".md")) then
      generateNoteFilenameLoop fs dir fuel (safeTitle ++ "-" ++ rnds.headD "r") rnds.tail
    else safeTitle ++ ".md"

def generateNoteFilename (title : String) (fs : List LocalFile) (dir : String)
    (rnds : List String) : String :=
  generateNoteFilenameLoop fs dir (fs.length + 1) (sanitizeTitleV2 title) rnds

/-- The options record of `saveNoteToFs` (`shouldLog` only affects
logging and is omitted). -/
structure SaveOpts where
  dir : String
  path : Option String
  confirmOverwrite : Bool
deriving DecidableEq

/-- `saveNoteToFs` (part_002): compute a fresh filename, serialize the
note, scan the directory for a resolved note with the same id; an explicit
target path together with such an existing note throws; otherwise the
target is the explicit path, else the existing note's path, else the fresh
name in the notes directory; with `confirmOverwrite`, an existing target
prompts (consuming the next confirm answer) and a declined prompt skips
the write.  `dec i` is the answer to the `i`-th confirmation of the run;
the returned index counts the prompts consumed. -/
def saveNoteToFs (note : Obj) (opts : SaveOpts) (fs : List LocalFile)
    (dec : Nat → Bool) (cIdx : Nat) (rnds : List String) (newMtime : String) :
    Except String (List LocalFile × Nat) :=
  let filename := generateNoteFilename (note.getStr "title") fs opts.dir rnds
  let content := formatNoteAsMarkdownV2 note
  let existingNote := (scanNotesDirectoryV2 fs).find?
    (fun e => e.note.get "id" == note.get "id")
  match opts.path, existingNote with
  | some _, some _ => .error "Path provided but note already exists locally"
  | _, _ =>
    let filePath := opts.path.getD
      (match existingNote with
       | some e => e.path
       | none => opts.dir ++ "/" ++ filename)
    if opts.confirmOverwrite ∧ fsExists fs filePath then
      if dec cIdx then .ok (writeFileFs fs filePath content newMtime, cIdx + 1)
      else .ok (fs, cIdx + 1)
    else .ok (writeFileFs fs filePath content newMtime, cIdx)

theorem scanV2_path_mem (fs : List LocalFile) (e : ScanEntry)
    (h : e ∈ scanNotesDirectoryV2 fs) : ∃ f ∈ fs, f.path = e.path := by
  obtain ⟨f, hf, hfe⟩ := List.mem_filterMap.mp h
  have hf2 : f ∈ fs := List.mem_of_mem_filter hf
  refine ⟨f, hf2, ?_⟩
  rcases hx : extractNoteFromMarkdownFileV2 ⟨f.content, f.path⟩ with _ | n
  · rw [hx] at hfe
    cases hfe
  · rw [hx] at hfe
    simp only [Option.map_some'] at hfe
    injection hfe with hfe2
    rw [← hfe2]

theorem writeFileFs_map_path (fs : List LocalFile) (p c m : String)
    (h : fs.any (fun f => f.path = p) = true) :
    (writeFileFs fs p c m).map LocalFile.path = fs.map LocalFile.path := by
  unfold writeFileFs
  rw [if_pos h, List.map_map]
  apply List.map_congr_left
  intro f _
  by_cases hp : f.path = p
  · show (if f.path = p then (⟨p, c, f.mtime⟩ : LocalFile) else f).path = f.path
    rw [if_pos hp]
    exact hp.symm
  · show (if f.path = p then (⟨p, c, f.mtime⟩ : LocalFile) else f).path = f.path
    rw [if_neg hp]

theorem writeFileFs_mem_of_ne (fs : List LocalFile) (p c m : String)
    (h : fs.any (fun f => f.path = p) = true) (f2 : LocalFile)
    (hmem : f2 ∈ writeFileFs fs p c m) (hne : f2.path ≠ p) : f2 ∈ fs := by
  unfold writeFileFs at hmem
  rw [if_pos h] at hmem
  obtain ⟨f, hf, hff⟩ := List.mem_map.mp hmem
  by_cases hp : f.path = p
  · rw [if_pos hp] at hff
    rw [← hff] at hne
    simp at hne
  · rw [if_neg hp] at hff
    rw [← hff]
    exact hf

/-- C9: `saveNoteToFs` preserves the one-file-per-id invariant.  When a
resolved local file with the note's id already exists: a call without an
explicit path succeeds and can only touch that existing file's path (the
set of paths on disk is unchanged, and every file at another path is
untouched), and a call with an explicit path fails without writing
anything. -/
theorem C9_saveNoteToFs_one_file_per_id (note : Obj) (fs : List LocalFile)
    (dir : String) (co : Bool) (dec : Nat → Bool) (cIdx : Nat)
    (rnds : List String) (mt : String) (e : ScanEntry)
    (hfind : (scanNotesDirectoryV2 fs).find?
      (fun x => x.note.get "id" == note.get "id") = some e) :
    (∃ fs2 c2, saveNoteToFs note ⟨dir, none, co⟩ fs dec cIdx rnds mt = .ok (fs2, c2) ∧
      fs2.map LocalFile.path = fs.map LocalFile.path ∧
      ∀ f2 ∈ fs2, f2.path ≠ e.path → f2 ∈ fs) ∧
    (∀ p, saveNoteToFs note ⟨dir, some p, co⟩ fs dec cIdx rnds mt =
      .error "Path provided but note already exists locally") := by
  have hemem : e ∈ scanNotesDirectoryV2 fs := List.mem_of_find?_eq_some hfind
  obtain ⟨f0, hf0, hf0p⟩ := scanV2_path_mem fs e hemem
  have hany : fs.any (fun f => f.path = e.path) = true := by
    refine List.any_eq_true.mpr ⟨f0, hf0, ?_⟩
    simp [hf0p]
  have hpaths : (writeFileFs fs e.path (formatNoteAsMarkdownV2 note) mt).map
      LocalFile.path = fs.map LocalFile.path :=
    writeFileFs_map_path fs e.path _ mt hany
  have hmem2 : ∀ f2 ∈ writeFileFs fs e.path (formatNoteAsMarkdownV2 note) mt,
      f2.path ≠ e.path → f2 ∈ fs :=
    fun f2 h2 hne => writeFileFs_mem_of_ne fs e.path _ mt hany f2 h2 hne
  constructor
  · unfold saveNoteToFs
    rw [hfind]
    by_cases hprompt : co ∧ fsExists fs e.path
    · by_cases hdec : dec cIdx = true
      · refine ⟨writeFileFs fs e.path (formatNoteAsMarkdownV2 note) mt, cIdx + 1,
          ?_, hpaths, hmem2⟩
        show (if co ∧ fsExists fs e.path then
          if dec cIdx then Except.ok (writeFileFs fs e.path
            (formatNoteAsMarkdownV2 note) mt, cIdx + 1)
          else Except.ok (fs, cIdx + 1)
          else Except.ok (writeFileFs fs e.path
            (formatNoteAsMarkdownV2 note) mt, cIdx)) = _
        rw [if_pos hprompt, if_pos hdec]
      · refine ⟨fs, cIdx + 1, ?_, rfl, fun f2 h2 _ => h2⟩
        show (if co ∧ fsExists fs e.path then
          if dec cIdx then Except.ok (writeFileFs fs e.path
            (formatNoteAsMarkdownV2 note) mt, cIdx + 1)
          else Except.ok (fs, cIdx + 1)
          else Except.ok (writeFileFs fs e.path
            (formatNoteAsMarkdownV2 note) mt, cIdx)) = _
        rw [if_pos hprompt, if_neg (by simpa using hdec)]
    · refine ⟨writeFileFs fs e.path (formatNoteAsMarkdownV2 note) mt, cIdx,
        ?_, hpaths, hmem2⟩
      show (if co ∧ fsExists fs e.path then
        if dec cIdx then Except.ok (writeFileFs fs e.path
          (formatNoteAsMarkdownV2 note) mt, cIdx + 1)
        else Except.ok (fs, cIdx + 1)
        else Except.ok (writeFileFs fs e.path
          (formatNoteAsMarkdownV2 note) mt, cIdx)) = _
      rw [if_neg hprompt]
  · intro p
    unfold saveNoteToFs
    rw [hfind]

/-- The concrete filesystem for the C9 witness: one tracked note. -/
def c9File : LocalFile :=
  ⟨"/n/a.md", "---\nid: 1\ntitle: t\ncreatedAt: c\nupdatedAt: u\n---\nb", "m"⟩

/-- The note being saved in the C9 witness (same id `1`). -/
def c9Note : Obj :=
  [("id", .vStr "1"), ("title", .vStr "t2"), ("content", .vStr "b2"),
   ("createdAt", .vStr "c"), ("updatedAt", .vStr "u2")]

/-- Witness for C9 at `c9File` / `c9Note`. -/
theorem C9_saveNoteToFs_one_file_per_id_witness :
    (∃ fs2 c2, saveNoteToFs c9Note ⟨"/n", none, false⟩ [c9File] (fun _ => true) 0 [] "m2" =
      .ok (fs2, c2) ∧
      fs2.map LocalFile.path = [c9File].map LocalFile.path ∧
      ∀ f2 ∈ fs2, f2.path ≠ "/n/a.md" → f2 ∈ [c9File]) ∧
    (∀ p, saveNoteToFs c9Note ⟨"/n", some p, false⟩ [c9File] (fun _ => true) 0 [] "m2" =
      .error "Path provided but note already exists locally") :=
  C9_saveNoteToFs_one_file_per_id c9Note [c9File] "/n" false (fun _ => true) 0 [] "m2"
    ⟨((extractNoteFromMarkdownFileV2 ⟨c9File.content, c9File.path⟩).getD []), "/n/a.md"⟩
    (by decide)

/-! ## Orchestrator model (part_002): `syncNotes` and its phases

The interactive effects are oracles: `Decision` answers the successive
confirmation and option prompts, `Env` additionally fixes the outcome of
each `git status` probe, the human's edits during each `lazygit` pause
(file-system edits and, for the out-of-band activity of other clients,
remote-store edits), the server-assigned id of each `createNote` call,
the random tape of each `saveNoteToFs` call and the wall-clock time of
each write.  External `git` commands themselves are assumed to succeed.
-/

/-- The decision source: `confirm i` answers the `i`-th confirmation
prompt of the run, `pick i` the `i`-th option menu. -/
structure Decision where
  confirm : Nat → Bool
  pick : Nat → String

/-- The oracle environment of a run (see the section comment). -/
structure Env where
  dec : Decision
  git : Nat → Bool
  edits : Nat → List LocalFile → List LocalFile
  remoteEdits : Nat → List Obj → List Obj
  ids : Nat → String
  rnds : Nat → List String
  mtimes : Nat → String

/-- The mutable state of a run: the file system, the remote store, and
the number of confirmation prompts, option menus, git probes, lazygit
pauses, `saveNoteToFs`-style writes and `createNote` calls consumed so
far. -/
structure RunState where
  fs : List LocalFile
  remote : List Obj
  cIdx : Nat
  pIdx : Nat
  gIdx : Nat
  eIdx : Nat
  sIdx : Nat
  nIdx : Nat
deriving DecidableEq

/-- Outcome of a phase: completed with a new state, terminated the whole
process (`process.exit`), or the interaction loop did not settle within
the modelling fuel. -/
inductive RunRes where
  | ok (st : RunState)
  | exited (code : Nat)
  | spin
deriving DecidableEq

/-- Sequencing of phases: exits and unsettled loops propagate. -/
def RunRes.bind : RunRes → (RunState → RunRes) → RunRes
  | .ok st, f => f st
  | .exited c, _ => .exited c
  | .spin, _ => .spin

/-- The `while (await getNotesDirHasGitChanges())` interaction loops of
`handleGitChanges` and of `handleConflict`'s pause: while the probe
reports a dirty tree, present the menu; `exit` terminates the process
with code 0, `lazygit` opens the pause during which the human (and any
other client) can change state, and every other option (`commit`,
`recheck`) re-probes (`git commit` is assumed to succeed).  Each
iteration consumes one probe and one pick. -/
def gitPauseLoop (env : Env) : Nat → RunState → RunRes
  | 0, _ => .spin
  | fuel + 1, st =>
    if env.git st.gIdx then
      let choice := env.dec.pick st.pIdx
      let st1 : RunState := { st with gIdx := st.gIdx + 1, pIdx := st.pIdx + 1 }
      if choice = "exit" then .exited 0
      else if choice = "lazygit" then
        gitPauseLoop env fuel
          { st1 with fs := env.edits st.eIdx st1.fs,
                     remote := env.remoteEdits st.eIdx st1.remote,
                     eIdx := st.eIdx + 1 }
      else gitPauseLoop env fuel st1
    else .ok { st with gIdx := st.gIdx + 1 }

/-- `saveNoteToFs` as a run step: the random tape and the write time come
from the environment at the current write index. -/
def saveNoteToFsRun (note : Obj) (opts : SaveOpts) (env : Env) (st : RunState) :
    Except String RunState :=
  match saveNoteToFs note opts st.fs env.dec.confirm st.cIdx (env.rnds st.sIdx)
      (env.mtimes st.sIdx) with
  | .error e => .error e
  | .ok (fs2, c2) => .ok { st with fs := fs2, cIdx := c2, sIdx := st.sIdx + 1 }

/-- `tt.notes.createNote` at its interface: the server stores the given
payload under a fresh server-assigned id and returns the created
record. -/
def createNoteRun (creatable : Obj) (env : Env) (st : RunState) : Obj × RunState :=
  let created := creatable.set "id" (.vStr (env.ids st.nIdx))
  (created, { st with remote := st.remote ++ [created], nIdx := st.nIdx + 1 })

/-- `tt.notes.updateNote(id, payload)` at its interface: the remote
record with the given id is replaced by the payload. -/
def updateNote (idv : Option Val) (payload : Obj) (remote : List Obj) : List Obj :=
  remote.map (fun r => if r.get "id" == idv then payload else r)

/-- The `localIdToPath` map of `ensureAllFilesAreTracked` (a JavaScript
`Map` keyed by note id, in insertion order). -/
def idMapGet (m : List (Option Val × String)) (k : Option Val) : Option String :=
  (m.find? (fun kv => kv.1 == k)).map (fun kv => kv.2)

/-- `Map.set`: override in place or append. -/
def idMapSet : List (Option Val × String) → Option Val → String → List (Option Val × String)
  | [], k, v => [(k, v)]
  | (k1, v1) :: rest, k, v =>
    if k1 = k then (k1, v) :: rest else (k1, v1) :: idMapSet rest k v

/-- The payload of the `'create'` option of `ensureAllFilesAreTracked`:
`{ title: note.title, content: note.content, date: note.date,
tags: note.tags ?? [] }`. -/
def trackPayload (note : Obj) : Obj :=
  [("title", note.getOrNull "title"), ("content", note.getOrNull "content"),
   ("date", note.getOrNull "date"), ("tags", jsTagsDefault note)]

/-- The duplicate-id check at the end of one `ensureAllFilesAreTracked`
iteration: a second file with an already-seen id presents a menu whose
non-exit options delete one of the two files; both fall through to
recording the current path for the id. -/
def ensureDupCheck (env : Env) (p : String) (m : List (Option Val × String))
    (note : Obj) (st : RunState) :
    RunRes ⊕ (List (Option Val × String) × RunState) :=
  match idMapGet m (note.get "id") with
  | some dupPath =>
    let choice := env.dec.pick st.pIdx
    let st1 := { st with pIdx := st.pIdx + 1 }
    if choice = "delete " ++ dupPath then
      .inr (idMapSet m (note.get "id") p,
        { st1 with fs := st1.fs.filter (fun f2 => f2.path ≠ dupPath) })
    else if choice = "delete " ++ p then
      .inr (idMapSet m (note.get "id") p,
        { st1 with fs := st1.fs.filter (fun f2 => f2.path ≠ p) })
    else .inl (.exited 0)
  | none => .inr (idMapSet m (note.get "id") p, st)

/-- The untracked-id check of one `ensureAllFilesAreTracked` iteration:
an id missing from the remote-id set (built once, at phase entry)
presents a menu; `create` pushes the note's payload to the server and
saves the created record, `delete` unlinks the file and skips the rest
of the iteration, anything else exits the process. -/
def ensureRemoteCheck (env : Env) (notesDir : String)
    (remoteIds : List (Option Val)) (p : String)
    (m : List (Option Val × String)) (note : Obj) (st : RunState) :
    RunRes ⊕ (List (Option Val × String) × RunState) :=
  if remoteIds.contains (note.get "id") then ensureDupCheck env p m note st
  else
    let choice := env.dec.pick st.pIdx
    let st1 := { st with pIdx := st.pIdx + 1 }
    if choice = "create" then
      let pr := createNoteRun (trackPayload note) env st1
      match saveNoteToFsRun pr.1 ⟨notesDir, none, false⟩ env pr.2 with
      | .error _ => .inl (.exited 1)
      | .ok st2 => ensureDupCheck env p m pr.1 st2
    else if choice = "delete" then
      .inr (m, { st1 with fs := st1.fs.filter (fun f2 => f2.path ≠ p) })
    else .inl (.exited 0)

/-- One iteration of `ensureAllFilesAreTracked`'s file loop: read the
file (a path already unlinked by this very loop would make `readFile`
reject, terminating the process with a nonzero code), resolve it; an
unresolvable file must be creatable (else `process.exit(1)`), then a
declined creation confirmation is `process.exit(0)`, else the note is
created on the server and saved; the resolved or created note then goes
through the untracked-id and duplicate-id checks. -/
def ensureStep (env : Env) (notesDir : String) (remoteIds : List (Option Val))
    (p : String) (m : List (Option Val × String)) (st : RunState) :
    RunRes ⊕ (List (Option Val × String) × RunState) :=
  match st.fs.find? (fun f => f.path = p) with
  | none => .inl (.exited 1)
  | some f =>
    match extractNoteFromMarkdownFileV2 ⟨f.content, p⟩ with
    | some note => ensureRemoteCheck env notesDir remoteIds p m note st
    | none =>
      match extractCreatableNote ⟨f.content, p⟩ f.mtime with
      | none => .inl (.exited 1)
      | some creatable =>
        let st1 := { st with cIdx := st.cIdx + 1 }
        if env.dec.confirm st.cIdx = false then .inl (.exited 0)
        else
          let pr := createNoteRun creatable env st1
          match saveNoteToFsRun pr.1 ⟨notesDir, none, false⟩ env pr.2 with
          | .error _ => .inl (.exited 1)
          | .ok st2 => ensureRemoteCheck env notesDir remoteIds p m pr.1 st2

/-- The file loop of `ensureAllFilesAreTracked`. -/
def ensureLoop (env : Env) (notesDir : String) (remoteIds : List (Option Val)) :
    List String → List (Option Val × String) → RunState → RunRes
  | [], _, st => .ok st
  | p :: rest, m, st =>
    match ensureStep env notesDir remoteIds p m st with
    | .inl r => r
    | .inr (m2, st2) => ensureLoop env notesDir remoteIds rest m2 st2

/-- `ensureAllFilesAreTracked` (part_002): walk the note files listed at
phase entry against the remote-id set fetched once at phase entry. -/
def ensureAllFilesAreTracked (env : Env) (notesDir : String) (st : RunState) : RunRes :=
  let paths := (noteFiles st.fs).map LocalFile.path
  let remoteIds := st.remote.map (fun r => r.get "id")
  ensureLoop env notesDir remoteIds paths [] st

/-- `findRemoteNotesToDownload`: the remote records whose id no resolved
local note carries. -/
def findRemoteNotesToDownload (fs : List LocalFile) (remote : List Obj) : List Obj :=
  let localIds := (scanNotesDirectoryV2 fs).map (fun e => e.note.get "id")
  remote.filter (fun r => !localIds.contains (r.get "id"))

/-- The download loop of `syncNotes`: save each note with
`confirmOverwrite: true`. -/
def downloadLoop (env : Env) (notesDir : String) : List Obj → RunState → RunRes
  | [], st => .ok st
  | n :: rest, st =>
    match saveNoteToFsRun n ⟨notesDir, none, true⟩ env st with
    | .error _ => .exited 1
    | .ok st2 => downloadLoop env notesDir rest st2

/-- The download phase of `syncNotes`: when there is anything to
download, one confirmation gates the whole batch; declining skips it. -/
def downloadPhase (env : Env) (notesDir : String) (st : RunState) : RunRes :=
  let toDl := findRemoteNotesToDownload st.fs st.remote
  if toDl.isEmpty then .ok st
  else
    let st1 := { st with cIdx := st.cIdx + 1 }
    if env.dec.confirm st.cIdx then downloadLoop env notesDir toDl st1
    else .ok st1

/-- The staging loop of `handleConflict`: write every conflicting remote
record to the file system (`confirmOverwrite: false`). -/
def stagingLoop (env : Env) (notesDir : String) : List Conflict → RunState → RunRes
  | [], st => .ok st
  | c :: rest, st =>
    match saveNoteToFsRun c.remote ⟨notesDir, none, false⟩ env st with
    | .error _ => .exited 1
    | .ok st2 => stagingLoop env notesDir rest st2

/-- The push loop of `handleConflict`, on the bare remote store: one
confirmation per conflict; a confirmed conflict updates the remote
record with the local note, a declined one is skipped. -/
def pushAll (dec : Nat → Bool) : List Conflict → Nat → List Obj → List Obj × Nat
  | [], cIdx, remote => (remote, cIdx)
  | c :: rest, cIdx, remote =>
    if dec cIdx then
      pushAll dec rest (cIdx + 1) (updateNote (c.remote.get "id") c.localNote remote)
    else pushAll dec rest (cIdx + 1) remote

/-- The push loop as a run step. -/
def pushLoop (env : Env) (conflicts : List Conflict) (st : RunState) : RunState :=
  let r := pushAll env.dec.confirm conflicts st.cIdx st.remote
  { st with remote := r.1, cIdx := r.2 }

/-- `handleConflict` (part_002): handle git changes, fetch the remote
snapshot ONCE, compute the conflicts, stage every conflicting remote
record to disk, pause for the human to resolve the resulting git
conflicts, recompute the conflicts against a fresh local scan but the
SAME entry snapshot of the remote store, and push each confirmed
conflict.  A local note with no same-id record in the snapshot is
`process.exit(1)`. -/
def handleConflict (env : Env) (notesDir : String) (fuel : Nat) (st : RunState) : RunRes :=
  RunRes.bind (gitPauseLoop env fuel st) (fun st1 =>
    match findConflictsStrict (scanNotesDirectoryV2 st1.fs) st1.remote with
    | .error c => .exited c
    | .ok conflicts1 =>
      RunRes.bind (stagingLoop env notesDir conflicts1 st1) (fun st2 =>
        RunRes.bind (gitPauseLoop env fuel st2) (fun st3 =>
          match findConflictsStrict (scanNotesDirectoryV2 st3.fs) st1.remote with
          | .error c => .exited c
          | .ok conflicts2 =>
            if conflicts2.isEmpty then .ok st3
            else .ok (pushLoop env conflicts2 st3))))

/-- The conflict phase AS THE SPEC DESCRIBES IT (for comparison with
`handleConflict`, which is the source translation): identical, except
that the conflict set used after the pause is recomputed from fresh
local AND remote snapshots — the second `findConflictsStrict` reads the
remote store as it stands after the pause instead of the entry
snapshot. -/
def handleConflictFresh (env : Env) (notesDir : String) (fuel : Nat) (st : RunState) : RunRes :=
  RunRes.bind (gitPauseLoop env fuel st) (fun st1 =>
    match findConflictsStrict (scanNotesDirectoryV2 st1.fs) st1.remote with
    | .error c => .exited c
    | .ok conflicts1 =>
      RunRes.bind (stagingLoop env notesDir conflicts1 st1) (fun st2 =>
        RunRes.bind (gitPauseLoop env fuel st2) (fun st3 =>
          match findConflictsStrict (scanNotesDirectoryV2 st3.fs) st3.remote with
          | .error c => .exited c
          | .ok conflicts2 =>
            if conflicts2.isEmpty then .ok st3
            else .ok (pushLoop env conflicts2 st3))))

/-- `syncNotes` (part_002): git changes, tracking, download, conflict
resolution. -/
def syncNotes (env : Env) (notesDir : String) (fuel : Nat) (st : RunState) : RunRes :=
  RunRes.bind (gitPauseLoop env fuel st) (fun st1 =>
    RunRes.bind (ensureAllFilesAreTracked env notesDir st1) (fun st2 =>
      RunRes.bind (downloadPhase env notesDir st2) (fun st3 =>
        handleConflict env notesDir fuel st3)))

/-- The per-note creation loop of the FIRST module's `syncNotes`
(parse-note.ts, `should_confirm` true): each creatable note gets its own
confirmation; a declined one is skipped (`continue`) and the sweep
proceeds with the remaining notes; a confirmed one is created on the
server and its file rewritten with the created record. -/
def syncNotesV1CreateLoop (env : Env) : List (String × Obj) → RunState → RunState
  | [], st => st
  | (p, note) :: rest, st =>
    let st1 := { st with cIdx := st.cIdx + 1 }
    if env.dec.confirm st.cIdx = false then syncNotesV1CreateLoop env rest st1
    else
      let pr := createNoteRun note env st1
      let st3 := { pr.2 with
        fs := writeFileFs pr.2.fs p (formatNoteAsMarkdown pr.1) (env.mtimes pr.2.sIdx),
        sIdx := pr.2.sIdx + 1 }
      syncNotesV1CreateLoop env rest st3

/-- The fresh reconciliation of a completed run's terminal state:
`none` when the run did not complete. -/
def terminalFreshConflicts : RunRes → Option (Except Nat (List Conflict))
  | .ok st => some (findConflictsStrict (scanNotesDirectoryV2 st.fs) st.remote)
  | _ => none

/-! ## C8: what a declined confirmation does to the sweep -/

/-- A note file that is not yet in the system (no id) but creatable. -/
def c8File : LocalFile := ⟨"/n/d.md", "---\ntitle: Draft\n---\nhi", "m"⟩

/-- An environment whose every confirmation is declined (the picks, git
probes and edits are inert). -/
def envC8 : Env :=
  ⟨⟨fun _ => false, fun _ => ""⟩, fun _ => false, fun _ fs => fs, fun _ r => r,
   fun _ => "", fun _ => [], fun _ => ""⟩

/-- The initial state of the C8 scenarios: one creatable file, empty
remote store. -/
def stC8 : RunState := ⟨[c8File], [], 0, 0, 0, 0, 0, 0⟩

/-- C8, counterexample: in `ensureAllFilesAreTracked` the confirmation
`Create note <title>?` is consumed (index 0 of the declining oracle) and
its declining runs `process.exit(0)` — the declined confirmation
terminates the whole run instead of skipping only that note. -/
theorem C8_declined_create_confirmation_exits :
    ensureAllFilesAreTracked envC8 "/n" stC8 = .exited 0 := by decide

/-- The empty starting state of the C8 amended witness. -/
def stC8w : RunState := ⟨[], [], 0, 0, 0, 0, 0, 0⟩

/-- C8, amended: in the FIRST module's per-note creation loop the claim
does hold.  A declined confirmation skips exactly that note — the run
continues with the remaining notes in the same state except for the
consumed prompt — and declining every confirmation completes the whole
sweep (the loop is total into `RunState`: it contains no `process.exit`)
touching neither the file system nor the remote store while still
consuming one confirmation per note. -/
theorem C8_amended_create_loop_skips (env : Env) (entries : List (String × Obj))
    (st : RunState) :
    (env.dec.confirm st.cIdx = false →
      ∀ p note rest, syncNotesV1CreateLoop env ((p, note) :: rest) st =
        syncNotesV1CreateLoop env rest { st with cIdx := st.cIdx + 1 }) ∧
    ((∀ i, env.dec.confirm i = false) →
      (syncNotesV1CreateLoop env entries st).fs = st.fs ∧
      (syncNotesV1CreateLoop env entries st).remote = st.remote ∧
      (syncNotesV1CreateLoop env entries st).cIdx = st.cIdx + entries.length) := by
  constructor
  · intro hd p note rest
    show (if env.dec.confirm st.cIdx = false then _ else _) = _
    rw [if_pos hd]
  · intro hall
    induction entries generalizing st with
    | nil => exact ⟨rfl, rfl, rfl⟩
    | cons e rest ih =>
      obtain ⟨p, note⟩ := e
      have hstep : syncNotesV1CreateLoop env ((p, note) :: rest) st =
          syncNotesV1CreateLoop env rest { st with cIdx := st.cIdx + 1 } := by
        show (if env.dec.confirm st.cIdx = false then _ else _) = _
        rw [if_pos (hall st.cIdx)]
      rw [hstep]
      obtain ⟨h1, h2, h3⟩ := ih { st with cIdx := st.cIdx + 1 }
      refine ⟨h1, h2, ?_⟩
      rw [h3]
      show st.cIdx + 1 + rest.length = st.cIdx + (rest.length + 1)
      omega

/-- Witness for the amended C8 at the declining environment, a
one-entry sweep and the empty state. -/
theorem C8_amended_create_loop_skips_witness :
    (syncNotesV1CreateLoop envC8 [("/p", [])] stC8w =
      syncNotesV1CreateLoop envC8 [] { stC8w with cIdx := stC8w.cIdx + 1 }) ∧
    ((syncNotesV1CreateLoop envC8 [("/p", [])] stC8w).fs = stC8w.fs ∧
      (syncNotesV1CreateLoop envC8 [("/p", [])] stC8w).remote = stC8w.remote ∧
      (syncNotesV1CreateLoop envC8 [("/p", [])] stC8w).cIdx =
        stC8w.cIdx + [("/p", ([] : Obj))].length) :=
  ⟨(C8_amended_create_loop_skips envC8 [("/p", [])] stC8w).1 rfl "/p" [] [],
   (C8_amended_create_loop_skips envC8 [("/p", [])] stC8w).2 (fun _ => rfl)⟩

/-! ## C2: the conflict set used after the pause -/

/-- The tracked local file of the C2 scenario. -/
def c2File : LocalFile :=
  ⟨"/n/a.md", "---\nid: 1\ntitle: Old\ncreatedAt: c\nupdatedAt: u\n---\nb", "m"⟩

/-- The remote record at phase entry (title `New`). -/
def c2Remote : Obj :=
  [("id", .vStr "1"), ("title", .vStr "New"), ("content", .vStr "b"),
   ("createdAt", .vStr "c"), ("updatedAt", .vStr "u"), ("date", .vStr "c"),
   ("published", .vBool false)]

/-- The same remote record after another client, during the human pause,
changes its title to agree with the local file. -/
def c2RemoteEdited : Obj :=
  [("id", .vStr "1"), ("title", .vStr "Old"), ("content", .vStr "b"),
   ("createdAt", .vStr "c"), ("updatedAt", .vStr "u"), ("date", .vStr "c"),
   ("published", .vBool false)]

/-- The resolved local note of `c2File`. -/
def c2LocalNote : Obj :=
  [("id", .vStr "1"), ("title", .vStr "Old"), ("content", .vStr "b"),
   ("createdAt", .vStr "c"), ("updatedAt", .vStr "u"), ("tags", .vNull),
   ("date", .vStr "c"), ("published", .vBool false)]

/-- The C2 environment: every push is confirmed; the tree is dirty
exactly at the post-staging probe; during the one `lazygit` pause the
human restores the local file and the other client edits the remote
title. -/
def envC2 : Env :=
  ⟨⟨fun _ => true, fun _ => "lazygit"⟩, fun i => i == 1,
   fun _ _ => [c2File], fun _ _ => [c2RemoteEdited],
   fun _ => "", fun _ => [], fun _ => "mt"⟩

/-- The C2 starting state. -/
def stC2 : RunState := ⟨[c2File], [c2Remote], 0, 0, 0, 0, 0, 0⟩

/-- The remote store of a completed phase. -/
def resRemote : RunRes → Option (List Obj)
  | .ok st => some st.remote
  | _ => none

/-- C2, counterexample: after the pause the source recomputes the
conflicts against the remote snapshot fetched at phase entry, not
against a fresh one.  In the C2 scenario the pause removed the only
difference on the server side, yet the source still sees the stale title
conflict and (confirmed) pushes the local note over the other client's
update; the spec-faithful variant `handleConflictFresh` sees no conflict
and pushes nothing. -/
theorem C2_stale_remote_snapshot_after_pause :
    resRemote (handleConflict envC2 "/n" 3 stC2) = some [c2LocalNote] ∧
    resRemote (handleConflictFresh envC2 "/n" 3 stC2) = some [c2RemoteEdited] := by
  decide

theorem gitPauseLoop_remote_const (env : Env)
    (hid : ∀ i r, env.remoteEdits i r = r) :
    ∀ fuel st st2, gitPauseLoop env fuel st = .ok st2 → st2.remote = st.remote := by
  intro fuel
  induction fuel with
  | zero => intro st st2 h; cases h
  | succ n ih =>
    intro st st2 h
    unfold gitPauseLoop at h
    by_cases hg : env.git st.gIdx = true
    · rw [if_pos hg] at h
      by_cases he : env.dec.pick st.pIdx = "exit"
      · rw [if_pos he] at h
        cases h
      · rw [if_neg he] at h
        by_cases hl : env.dec.pick st.pIdx = "lazygit"
        · rw [if_pos hl] at h
          have := ih _ _ h
          rw [this]
          exact hid _ _
        · rw [if_neg hl] at h
          have h2 := ih _ _ h
          exact h2
    · rw [if_neg hg] at h
      cases h
      rfl

theorem stagingLoop_remote_const (env : Env) (d : String) :
    ∀ cs st st2, stagingLoop env d cs st = .ok st2 → st2.remote = st.remote := by
  intro cs
  induction cs with
  | nil => intro st st2 h; cases h; rfl
  | cons c rest ih =>
    intro st st2 h
    unfold stagingLoop at h
    rcases hs : saveNoteToFsRun c.remote ⟨d, none, false⟩ env st with e | st1
    · rw [hs] at h
      cases h
    · rw [hs] at h
      have h1 := ih _ _ h
      rw [h1]
      unfold saveNoteToFsRun at hs
      rcases hv : saveNoteToFs c.remote ⟨d, none, false⟩ st.fs env.dec.confirm st.cIdx
          (env.rnds st.sIdx) (env.mtimes st.sIdx) with e2 | pair
      · rw [hv] at hs
        cases hs
      · rw [hv] at hs
        cases hs
        rfl

theorem RunRes.bind_ok (st : RunState) (f : RunState → RunRes) :
    RunRes.bind (.ok st) f = f st := rfl

/-- C2, amended: the LOCAL half of the claim is honoured — the scan
behind the post-pause conflict set is fresh — but the remote snapshot is
the one fetched at phase entry.  Consequently the source phase agrees
with the spec-described phase exactly when the remote store does not
change out of band during the pauses: under inert remote edits the two
are equal on every input. -/
theorem C2_amended_fresh_local_stale_remote (env : Env) (notesDir : String)
    (fuel : Nat) (st : RunState)
    (hid : ∀ i r, env.remoteEdits i r = r) :
    handleConflict env notesDir fuel st = handleConflictFresh env notesDir fuel st := by
  unfold handleConflict handleConflictFresh
  rcases h1 : gitPauseLoop env fuel st with st1 | c | _
  · simp only [RunRes.bind]
    rcases h2 : findConflictsStrict (scanNotesDirectoryV2 st1.fs) st1.remote with c | cs1
    · rfl
    · simp only []
      rcases h3 : stagingLoop env notesDir cs1 st1 with st2 | c | _
      · simp only [RunRes.bind]
        rcases h4 : gitPauseLoop env fuel st2 with st3 | c | _
        · simp only [RunRes.bind]
          have e3 : st3.remote = st2.remote := gitPauseLoop_remote_const env hid fuel st2 st3 h4
          have e2 : st2.remote = st1.remote := stagingLoop_remote_const env notesDir cs1 st1 st2 h3
          rw [e3, e2]
        · rfl
        · rfl
      · rfl
      · rfl
  · rfl
  · rfl

/-- Witness for the amended C2 at an environment with inert remote
edits. -/
theorem C2_amended_fresh_local_stale_remote_witness :
    handleConflict envC8 "/n" 1 stC8w = handleConflictFresh envC8 "/n" 1 stC8w :=
  C2_amended_fresh_local_stale_remote envC8 "/n" 1 stC8w (fun _ _ => rfl)

/-! ## C1: is a completed sweep a fixed point? -/

/-- The C1 environment: clean git tree except right after the staging
write (probe 2); the human restores the local file during the one pause;
the push confirmation is declined; no out-of-band remote edits. -/
def envC1 : Env :=
  ⟨⟨fun _ => false, fun _ => "lazygit"⟩, fun i => i == 2,
   fun _ _ => [c2File], fun _ r => r,
   fun _ => "", fun _ => [], fun _ => "mt"⟩

instance {e a : Type} [DecidableEq e] [DecidableEq a] : DecidableEq (Except e a)
  | .error x, .error y =>
    if h : x = y then .isTrue (by rw [h]) else .isFalse (by intro hc; cases hc; exact h rfl)
  | .error _, .ok _ => .isFalse (by intro hc; cases hc)
  | .ok _, .error _ => .isFalse (by intro hc; cases hc)
  | .ok x, .ok y =>
    if h : x = y then .isTrue (by rw [h]) else .isFalse (by intro hc; cases hc; exact h rfl)

/-- C1, counterexample: a `syncNotes` run that completes without any
early exit (clean git timeline, the one tracked file resolves and is on
the server, nothing to download, one title conflict whose push is
declined) reaches its terminal state with a fresh reconciliation that
still reports the title conflict — the sweep is not a fixed point. -/
theorem C1_terminal_state_not_fixed_point :
    terminalFreshConflicts (syncNotes envC1 "/n" 3 stC2) =
      some (.ok [⟨c2LocalNote, "/n/a.md", c2Remote, ["title"]⟩]) := by decide

theorem conflictTypeOf_self (note : Obj) (s : String)
    (hc : note.get "content" = some (.vStr s))
    (hs : removeFrontmatterFromMarkdownFile s = s) :
    conflictTypeOf note note = [] := by
  unfold conflictTypeOf
  rw [if_pos rfl, if_pos rfl, if_pos rfl]
  have hgs : note.getStr "content" = s := by
    unfold Obj.getStr
    rw [hc]
  rw [hgs, hs, if_pos hc]
  simp [isOtherKey]

theorem updateNote_get_id (idv : Option Val) (payload : Obj) (remote : List Obj)
    (hp : payload.get "id" = idv) :
    (updateNote idv payload remote).map (fun r => Obj.get r "id") =
      remote.map (fun r => Obj.get r "id") := by
  unfold updateNote
  rw [List.map_map]
  apply List.map_congr_left
  intro r _
  show Obj.get (if (Obj.get r "id" == idv) = true then payload else r) "id" = Obj.get r "id"
  by_cases hb : (Obj.get r "id" == idv) = true
  · rw [if_pos hb, hp]
    exact (eq_of_beq hb).symm
  · rw [if_neg hb]

theorem updateNote_find_ne (idv x : Option Val) (payload : Obj) (remote : List Obj)
    (hp : payload.get "id" = idv) (hne : x ≠ idv) :
    (updateNote idv payload remote).find? (fun r => Obj.get r "id" == x) =
      remote.find? (fun r => Obj.get r "id" == x) := by
  induction remote with
  | nil => rfl
  | cons r rest ih =>
    show List.find? _ ((if (Obj.get r "id" == idv) = true then payload else r) ::
      (updateNote idv payload rest)) = _
    by_cases hb : (Obj.get r "id" == idv) = true
    · rw [if_pos hb]
      have hrx : (Obj.get r "id" == x) = false := by
        refine beq_eq_false_iff_ne.mpr ?_
        rw [eq_of_beq hb]
        exact fun hxx => hne hxx.symm
      have hpx : (Obj.get payload "id" == x) = false := by
        refine beq_eq_false_iff_ne.mpr ?_
        rw [hp]
        exact fun hxx => hne hxx.symm
      rw [List.find?_cons_of_neg _ (by simpa using hpx),
        List.find?_cons_of_neg _ (by simpa using hrx)]
      exact ih
    · rw [if_neg hb]
      by_cases hrx : (Obj.get r "id" == x) = true
      · rw [List.find?_cons_of_pos _ (by simpa using hrx),
          List.find?_cons_of_pos _ (by simpa using hrx)]
      · rw [List.find?_cons_of_neg _ (by simpa using hrx),
          List.find?_cons_of_neg _ (by simpa using hrx)]
        exact ih

theorem updateNote_find_eq (idv : Option Val) (payload : Obj) (remote : List Obj)
    (r0 : Obj) (hf : remote.find? (fun r => Obj.get r "id" == idv) = some r0)
    (hp : payload.get "id" = idv) :
    (updateNote idv payload remote).find? (fun r => Obj.get r "id" == idv) =
      some payload := by
  induction remote with
  | nil => cases hf
  | cons r rest ih =>
    show List.find? _ ((if (Obj.get r "id" == idv) = true then payload else r) ::
      (updateNote idv payload rest)) = _
    by_cases hb : (Obj.get r "id" == idv) = true
    · rw [if_pos hb]
      rw [List.find?_cons_of_pos _ (by simpa using beq_iff_eq.mpr hp)]
    · rw [if_neg hb]
      rw [List.find?_cons_of_neg _ (by simpa using hb)]
      rw [List.find?_cons_of_neg _ (by simpa using hb)] at hf
      exact ih hf

/-- The remote store after the confirmed pushes, as a bare fold. -/
def pushFoldAll : List Conflict → List Obj → List Obj
  | [], R => R
  | c :: rest, R => pushFoldAll rest (updateNote (c.remote.get "id") c.localNote R)

theorem pushAll_all_true (dec : Nat → Bool) (hall : ∀ i, dec i = true) :
    ∀ (conflicts : List Conflict) (cIdx : Nat) (remote : List Obj),
      (pushAll dec conflicts cIdx remote).1 = pushFoldAll conflicts remote := by
  intro conflicts
  induction conflicts with
  | nil => intro cIdx remote; rfl
  | cons c rest ih =>
    intro cIdx remote
    unfold pushAll
    rw [if_pos (hall cIdx)]
    exact ih _ _

theorem pushFoldAll_find_ne :
    ∀ (conflicts : List Conflict) (R : List Obj) (x : Option Val),
      (∀ c ∈ conflicts, c.localNote.get "id" = c.remote.get "id") →
      (∀ c ∈ conflicts, c.remote.get "id" ≠ x) →
      (pushFoldAll conflicts R).find? (fun r => Obj.get r "id" == x) =
        R.find? (fun r => Obj.get r "id" == x) := by
  intro conflicts
  induction conflicts with
  | nil => intro R x _ _; rfl
  | cons c rest ih =>
    intro R x hids hx
    show (pushFoldAll rest (updateNote (c.remote.get "id") c.localNote R)).find? _ = _
    rw [ih _ x (fun c2 h2 => hids c2 (List.mem_cons_of_mem c h2))
      (fun c2 h2 => hx c2 (List.mem_cons_of_mem c h2))]
    exact updateNote_find_ne _ x _ R (hids c (List.mem_cons_self c rest))
      (fun hxx => hx c (List.mem_cons_self c rest) hxx.symm)

theorem pushFoldAll_find_eq :
    ∀ (conflicts : List Conflict) (R : List Obj) (c : Conflict) (r0 : Obj),
      c ∈ conflicts →
      (∀ c2 ∈ conflicts, c2.localNote.get "id" = c2.remote.get "id") →
      (conflicts.map (fun c2 => c2.remote.get "id")).Nodup →
      R.find? (fun r => Obj.get r "id" == c.remote.get "id") = some r0 →
      (pushFoldAll conflicts R).find? (fun r => Obj.get r "id" == c.remote.get "id") =
        some c.localNote := by
  intro conflicts
  induction conflicts with
  | nil => intro R c r0 hmem; cases hmem
  | cons c2 rest ih =>
    intro R c r0 hmem hids hnd hf
    obtain ⟨hni, hnd2⟩ := List.nodup_cons.mp hnd
    rcases List.mem_cons.mp hmem with hc | hc
    · subst hc
      show (pushFoldAll rest (updateNote (c.remote.get "id") c.localNote R)).find? _ = _
      rw [pushFoldAll_find_ne rest _ (c.remote.get "id")
        (fun c3 h3 => hids c3 (List.mem_cons_of_mem c h3))
        (fun c3 h3 hx => hni (List.mem_map.mpr ⟨c3, h3, hx⟩))]
      exact updateNote_find_eq _ _ R r0 hf (hids c (List.mem_cons_self c rest))
    · show (pushFoldAll rest (updateNote (c2.remote.get "id") c2.localNote R)).find? _ = _
      have hne : c.remote.get "id" ≠ c2.remote.get "id" := by
        intro hx
        exact hni (List.mem_map.mpr ⟨c, hc, hx⟩)
      refine ih _ c r0 hc (fun c3 h3 => hids c3 (List.mem_cons_of_mem c2 h3)) hnd2 ?_
      rw [updateNote_find_ne _ _ _ R (hids c2 (List.mem_cons_self c2 rest)) hne]
      exact hf

theorem strict_nil_of_pointwise :
    ∀ (entries : List ScanEntry) (R : List Obj),
      (∀ e ∈ entries, ∃ r,
        R.find? (fun x => Obj.get x "id" == e.note.get "id") = some r ∧
        conflictTypeOf e.note r = []) →
      findConflictsStrict entries R = .ok [] := by
  intro entries
  induction entries with
  | nil => intro R _; rfl
  | cons e rest ih =>
    intro R h
    obtain ⟨r, hf, hct⟩ := h e (List.mem_cons_self e rest)
    unfold findConflictsStrict
    rw [hf, ih R (fun e2 h2 => h e2 (List.mem_cons_of_mem e h2))]
    show Except.ok (if conflictTypeOf e.note r = [] then [] else
      [⟨e.note, e.path, r, conflictTypeOf e.note r⟩]) = Except.ok ([] : List Conflict)
    rw [if_pos hct]

theorem strict_ok_analysis (remote0 : List Obj) :
    ∀ (entries : List ScanEntry) (conflicts : List Conflict),
      findConflictsStrict entries remote0 = .ok conflicts →
      ((conflicts.map (fun c => c.remote.get "id")).Sublist
        (entries.map (fun e => e.note.get "id")) ∧
      (∀ c ∈ conflicts, c.localNote.get "id" = c.remote.get "id") ∧
      ((entries.map (fun e => e.note.get "id")).Nodup →
        ∀ e ∈ entries, ∃ r,
          remote0.find? (fun x => Obj.get x "id" == e.note.get "id") = some r ∧
          ((conflictTypeOf e.note r = [] ∧
            ∀ c ∈ conflicts, c.remote.get "id" ≠ e.note.get "id") ∨
           (∃ c ∈ conflicts, c.localNote = e.note ∧ c.remote = r)))) := by
  intro entries
  induction entries with
  | nil =>
    intro conflicts h
    have h2 : Except.ok ([] : List Conflict) = Except.ok conflicts := h
    injection h2 with h3
    subst h3
    exact ⟨List.nil_sublist _, fun c hc => absurd hc (List.not_mem_nil c),
      fun _ e he => absurd he (List.not_mem_nil e)⟩
  | cons e rest ih =>
    intro conflicts h
    unfold findConflictsStrict at h
    rcases hf : remote0.find? (fun r => r.get "id" == e.note.get "id") with _ | r
    · rw [hf] at h
      cases h
    · rw [hf] at h
      have hp := List.find?_some hf
      have hr : Obj.get r "id" = Obj.get e.note "id" := eq_of_beq hp
      rcases hrest : findConflictsStrict rest remote0 with n | cs2
      · rw [hrest] at h
        cases h
      · rw [hrest] at h
        obtain ⟨ih1, ih2, ih3⟩ := ih cs2 hrest
        by_cases hct : conflictTypeOf e.note r = []
        · have h2 : (Except.ok cs2 : Except Nat (List Conflict)) = Except.ok conflicts := by
            rw [← h]
            show (Except.ok cs2 : Except Nat (List Conflict)) =
              Except.ok (if conflictTypeOf e.note r = [] then cs2 else _)
            rw [if_pos hct]
          injection h2 with h3
          subst h3
          refine ⟨ih1.cons _, ih2, ?_⟩
          intro hnd
          obtain ⟨hni, hnd2⟩ := List.nodup_cons.mp hnd
          intro e2 he2
          rcases List.mem_cons.mp he2 with he2 | he2
          · subst he2
            refine ⟨r, hf, .inl ⟨hct, ?_⟩⟩
            intro c hc hx
            exact hni (ih1.subset (List.mem_map.mpr ⟨c, hc, hx⟩))
          · exact ih3 hnd2 e2 he2
        · have h2 : (Except.ok (⟨e.note, e.path, r, conflictTypeOf e.note r⟩ :: cs2) :
              Except Nat (List Conflict)) = Except.ok conflicts := by
            rw [← h]
            show _ = Except.ok (if conflictTypeOf e.note r = [] then cs2 else _)
            rw [if_neg hct]
          injection h2 with h3
          subst h3
          refine ⟨?_, ?_, ?_⟩
          · show (Obj.get r "id" :: cs2.map (fun c => c.remote.get "id")).Sublist
              (Obj.get e.note "id" :: rest.map (fun e2 => e2.note.get "id"))
            rw [hr]
            exact List.Sublist.cons₂ _ ih1
          · intro c hc
            rcases List.mem_cons.mp hc with hc | hc
            · subst hc
              show Obj.get e.note "id" = Obj.get r "id"
              exact hr.symm
            · exact ih2 c hc
          · intro hnd
            obtain ⟨hni, hnd2⟩ := List.nodup_cons.mp hnd
            intro e2 he2
            rcases List.mem_cons.mp he2 with he2 | he2
            · subst he2
              exact ⟨r, hf, .inr ⟨⟨e2.note, e2.path, r, conflictTypeOf e2.note r⟩,
                List.mem_cons_self _ _, rfl, rfl⟩⟩
            · obtain ⟨r2, hf2, hcase⟩ := ih3 hnd2 e2 he2
              refine ⟨r2, hf2, ?_⟩
              rcases hcase with ⟨hct2, hall2⟩ | ⟨c, hc, hrest2⟩
              · refine .inl ⟨hct2, ?_⟩
                intro c hc hx
                rcases List.mem_cons.mp hc with hc | hc
                · subst hc
                  have hx2 : Obj.get r "id" = Obj.get e2.note "id" := hx
                  apply hni
                  exact List.mem_map.mpr ⟨e2, he2, hx2.symm.trans hr⟩
                · exact hall2 c hc hx
              · exact .inr ⟨c, List.mem_cons_of_mem _ hc, hrest2⟩

/-- C1, amended: the push phase alone does reach a fixed point when the
user lets it act.  If the post-pause reconciliation of the scanned
entries against the remote snapshot succeeds with some conflict list,
every push confirmation is answered yes, the scanned notes carry
pairwise distinct ids, and each scanned note's `content` field is a
string that frontmatter stripping leaves unchanged (the body of a
well-formed file), then recomputing the reconciliation of the same
entries against the pushed remote store finds no conflict at all. -/
theorem C1_amended_confirmed_push_fixed_point
    (entries : List ScanEntry) (remote0 : List Obj) (conflicts : List Conflict)
    (dec : Nat → Bool) (cIdx : Nat)
    (h1 : findConflictsStrict entries remote0 = .ok conflicts)
    (hall : ∀ i, dec i = true)
    (hnd : (entries.map (fun e => e.note.get "id")).Nodup)
    (hstrip : ∀ e ∈ entries, ∃ s, e.note.get "content" = some (.vStr s) ∧
      removeFrontmatterFromMarkdownFile s = s) :
    findConflictsStrict entries (pushAll dec conflicts cIdx remote0).1 = .ok [] := by
  rw [pushAll_all_true dec hall conflicts cIdx remote0]
  obtain ⟨hsub, hids, hpt⟩ := strict_ok_analysis remote0 entries conflicts h1
  have hndc : (conflicts.map (fun c => c.remote.get "id")).Nodup := hnd.sublist hsub
  apply strict_nil_of_pointwise
  intro e he
  obtain ⟨r, hf, hcase⟩ := hpt hnd e he
  rcases hcase with ⟨hct, hnone⟩ | ⟨c, hc, hln, hrem⟩
  · refine ⟨r, ?_, hct⟩
    rw [pushFoldAll_find_ne conflicts remote0 _ hids hnone]
    exact hf
  · have hid2 : c.remote.get "id" = e.note.get "id" := by
      rw [← hids c hc, hln]
    obtain ⟨s, hcs, hss⟩ := hstrip e he
    refine ⟨e.note, ?_, conflictTypeOf_self e.note s hcs hss⟩
    have hf2 : remote0.find? (fun x => Obj.get x "id" == c.remote.get "id") = some r := by
      rw [hid2]
      exact hf
    have hmain := pushFoldAll_find_eq conflicts remote0 c r hc hids hndc hf2
    rw [← hid2, ← hln]
    exact hmain

/-- The scanned entries of the C1 amended witness. -/
def c1wEntries : List ScanEntry := [⟨c2LocalNote, "/n/a.md"⟩]

/-- The conflict list of the C1 amended witness (the title conflict of
the C2 scenario objects). -/
def c1wConflicts : List Conflict := [⟨c2LocalNote, "/n/a.md", c2Remote, ["title"]⟩]

/-- Witness for the amended C1: one title conflict, push confirmed,
recomputation is clean. -/
theorem C1_amended_confirmed_push_fixed_point_witness :
    findConflictsStrict c1wEntries
      (pushAll (fun _ => true) c1wConflicts 0 [c2Remote]).1 = .ok [] :=
  C1_amended_confirmed_push_fixed_point c1wEntries [c2Remote] c1wConflicts
    (fun _ => true) 0 (by decide) (fun _ => rfl) (by decide)
    (fun e he => ⟨"b", by
      have he2 : e = ⟨c2LocalNote, "/n/a.md"⟩ := List.mem_singleton.mp he
      rw [he2]
      decide, by decide⟩)

end TT
